import Mathlib

/-!
# Lichtblick: `wasm-bz2` and `rosmsg-bobject` native modules

A shallow embedding of

* `packages/wasm-bz2/cpp/module.cpp` (`errorCodeToString`, `decompress`),
* `packages/rosmsg-bobject/cpp/include/DefinitionRegistry.hpp` (the declarations of
  `cruise::DefinitionRegistry`),
* `packages/rosmsg-bobject/cpp/src/main.cpp` (the `EMSCRIPTEN_BINDINGS(cruise)` table),

followed by a model of the schema compiler and message writer, whose translation units
(`Definition.cpp`, `DefinitionRegistry.cpp`, `MessageWriter.cpp`) are not among the sources.
-/

set_option autoImplicit false

/-! ## `wasm-bz2/cpp/module.cpp` -/

namespace Bz2

/-- Modelled from the spec: the return codes of `<bzip2/bzlib.h>`, a header that is not among
the sources; `BZ_OK` is 0, the four positive status codes are 1 to 4 and the nine error codes
are -1 to -9. -/
def BZ_OK : Int := 0
/-- Modelled from the spec: `BZ_RUN_OK` of `<bzip2/bzlib.h>`. -/
def BZ_RUN_OK : Int := 1
/-- Modelled from the spec: `BZ_FLUSH_OK` of `<bzip2/bzlib.h>`. -/
def BZ_FLUSH_OK : Int := 2
/-- Modelled from the spec: `BZ_FINISH_OK` of `<bzip2/bzlib.h>`. -/
def BZ_FINISH_OK : Int := 3
/-- Modelled from the spec: `BZ_STREAM_END` of `<bzip2/bzlib.h>`. -/
def BZ_STREAM_END : Int := 4
/-- Modelled from the spec: `BZ_SEQUENCE_ERROR` of `<bzip2/bzlib.h>`. -/
def BZ_SEQUENCE_ERROR : Int := -1
/-- Modelled from the spec: `BZ_PARAM_ERROR` of `<bzip2/bzlib.h>`. -/
def BZ_PARAM_ERROR : Int := -2
/-- Modelled from the spec: `BZ_MEM_ERROR` of `<bzip2/bzlib.h>`. -/
def BZ_MEM_ERROR : Int := -3
/-- Modelled from the spec: `BZ_DATA_ERROR` of `<bzip2/bzlib.h>`. -/
def BZ_DATA_ERROR : Int := -4
/-- Modelled from the spec: `BZ_DATA_ERROR_MAGIC` of `<bzip2/bzlib.h>`. -/
def BZ_DATA_ERROR_MAGIC : Int := -5
/-- Modelled from the spec: `BZ_IO_ERROR` of `<bzip2/bzlib.h>`. -/
def BZ_IO_ERROR : Int := -6
/-- Modelled from the spec: `BZ_UNEXPECTED_EOF` of `<bzip2/bzlib.h>`. -/
def BZ_UNEXPECTED_EOF : Int := -7
/-- Modelled from the spec: `BZ_OUTBUFF_FULL` of `<bzip2/bzlib.h>`. -/
def BZ_OUTBUFF_FULL : Int := -8
/-- Modelled from the spec: `BZ_CONFIG_ERROR` of `<bzip2/bzlib.h>`. -/
def BZ_CONFIG_ERROR : Int := -9

/-- The nine error codes, in the order of the `case` labels of `errorCodeToString`. -/
def errorCodes : List Int :=
  [BZ_SEQUENCE_ERROR, BZ_PARAM_ERROR, BZ_MEM_ERROR, BZ_DATA_ERROR, BZ_DATA_ERROR_MAGIC,
   BZ_IO_ERROR, BZ_UNEXPECTED_EOF, BZ_OUTBUFF_FULL, BZ_CONFIG_ERROR]

/-- `static const char *errorCodeToString(int code)`: the `switch` over the nine error
constants; `nullptr` is `none`. -/
def errorCodeToString (code : Int) : Option String :=
  if code = BZ_SEQUENCE_ERROR then some "BZ_SEQUENCE_ERROR"
  else if code = BZ_PARAM_ERROR then some "BZ_PARAM_ERROR"
  else if code = BZ_MEM_ERROR then some "BZ_MEM_ERROR"
  else if code = BZ_DATA_ERROR then some "BZ_DATA_ERROR"
  else if code = BZ_DATA_ERROR_MAGIC then some "BZ_DATA_ERROR_MAGIC"
  else if code = BZ_IO_ERROR then some "BZ_IO_ERROR"
  else if code = BZ_UNEXPECTED_EOF then some "BZ_UNEXPECTED_EOF"
  else if code = BZ_OUTBUFF_FULL then some "BZ_OUTBUFF_FULL"
  else if code = BZ_CONFIG_ERROR then some "BZ_CONFIG_ERROR"
  else none

/-- The values `decompress` stores in its result object: an `emscripten::val` made from an
`int`, from a C string, or from a `typed_memory_view(length, pointer)`. -/
inductive Val where
  | int (i : Int)
  | str (s : String)
  | memoryView (length : Nat) (ptr : Nat)
  deriving DecidableEq, Repr

/-- A JavaScript object as built by `emscripten::val::object()` and `set`: its properties in
insertion order. -/
abbrev Obj := List (String × Val)

/-- `emscripten::val::object()`. -/
def Obj.empty : Obj := []

/-- `result.set(key, value)`: overwrites the property when present, appends it otherwise. -/
def Obj.set : Obj → String → Val → Obj
  | [], k, v => [(k, v)]
  | (k', v') :: rest, k, v =>
    if k' = k then (k, v) :: rest else (k', v') :: Obj.set rest k v

/-- Property lookup on the result object. -/
def Obj.get? : Obj → String → Option Val
  | [], _ => none
  | (k', v') :: rest, k => if k' = k then some v' else Obj.get? rest k

/-- Whether the object has the property. -/
def Obj.has (o : Obj) (k : String) : Bool := (o.get? k).isSome

/-- The property names of the object. -/
def Obj.keys (o : Obj) : List String := o.map Prod.fst

/-- The library call `BZ2_bzBuffToBuffDecompress(dest, &destLen, source, sourceLen, small,
verbosity)` as `decompress` sees it: from the six arguments to the return code and the value
the library leaves in `destLen`. The library is external, so it is a parameter. -/
abbrev BuffToBuffDecompress := Nat → Nat → Nat → Nat → Int → Int → Int × Nat

/-- `emscripten::val decompress(uintptr_t dest, unsigned int destLen, uintptr_t src,
unsigned int srcLen, int small)`. -/
def decompress (BZ2_bzBuffToBuffDecompress : BuffToBuffDecompress)
    (dest destLen src srcLen : Nat) (small : Int) : Obj :=
  let call := BZ2_bzBuffToBuffDecompress dest destLen src srcLen small 0
  let ret := call.1
  let destLen := call.2
  let result := Obj.empty
  let result := result.set "code" (Val.int ret)
  if ret = BZ_OK then
    result.set "buffer" (Val.memoryView destLen dest)
  else
    match errorCodeToString ret with
    | some str => result.set "error" (Val.str str)
    | none => result

end Bz2

/-! ## `rosmsg-bobject/cpp/src/main.cpp`: the binding table -/

namespace Bindings

/-- One `.function("jsName", &cruise::Class::member)` line of a `class_` block. -/
structure FunctionBinding where
  jsName : String
  member : String
  deriving DecidableEq, Repr

/-- One `emscripten::class_<cruise::C>("jsClass")` block: the bound class name, whether the
block has `.constructor()`, and its `.function` lines in order. -/
structure ClassBinding where
  jsClass : String
  hasConstructor : Bool
  functions : List FunctionBinding
  deriving DecidableEq, Repr

/-- The `emscripten::register_vector<int>("IntVector")` line. -/
def registeredVectors : List String := ["IntVector"]

/-- The three `class_` blocks of `EMSCRIPTEN_BINDINGS(cruise)`. -/
def classBindings : List ClassBinding :=
  [ { jsClass := "Definition", hasConstructor := false,
      functions :=
        [ ⟨"getName", "Definition::getName"⟩,
          ⟨"getCommands", "Definition::flattenCommands"⟩,
          ⟨"getSize", "Definition::getSize"⟩,
          ⟨"addField", "Definition::addField"⟩ ] },
    { jsClass := "DefinitionRegistry", hasConstructor := true,
      functions :=
        [ ⟨"create", "DefinitionRegistry::createDefinition"⟩,
          ⟨"get", "DefinitionRegistry::getDefinition"⟩,
          ⟨"finalize", "DefinitionRegistry::finalizeAll"⟩ ] },
    { jsClass := "MessageWriter", hasConstructor := true,
      functions :=
        [ ⟨"reserve", "MessageWriter::reserve"⟩,
          ⟨"write", "MessageWriter::write"⟩,
          ⟨"getBuffer", "MessageWriter::getDataBufferJS"⟩,
          ⟨"getBigString", "MessageWriter::getStringBufferJS"⟩ ] } ]

/-- The function names a bound class exposes to the host, in binding order. -/
def exposedNames (jsClass : String) : List String :=
  (classBindings.filter (fun c => c.jsClass = jsClass)).flatMap
    (fun c => c.functions.map FunctionBinding.jsName)

/-- The C++ member a host-side name of a bound class is bound to. -/
def boundMember (jsClass jsName : String) : Option String :=
  ((classBindings.filter (fun c => c.jsClass = jsClass)).flatMap
    (fun c => c.functions.filter (fun f => f.jsName = jsName))).head?.map FunctionBinding.member

/-- The classes that can be constructed from the host. -/
def constructibleClasses : List String :=
  (classBindings.filter (fun c => c.hasConstructor)).map ClassBinding.jsClass

end Bindings

/-! ## `rosmsg-bobject/cpp/include/DefinitionRegistry.hpp`: the declarations -/

namespace Decl

/-- The return types that occur in the class. -/
inductive CType where
  | definitionPtr   -- `Definition*`
  | bool            -- `bool`
  deriving DecidableEq, Repr

/-- Whether a value of the type can be the null sentinel. -/
def CType.nullable : CType → Bool
  | .definitionPtr => true
  | .bool => false

/-- A public member function declaration of `DefinitionRegistry`. -/
structure MethodDecl where
  name : String
  params : List String
  ret : CType
  isNoexcept : Bool
  deriving DecidableEq, Repr

/-- Lines 34 to 36 of the header. -/
def methods : List MethodDecl :=
  [ ⟨"DefinitionRegistry::createDefinition", ["const std::string&"], .definitionPtr, true⟩,
    ⟨"DefinitionRegistry::getDefinition", ["const std::string&"], .definitionPtr, true⟩,
    ⟨"DefinitionRegistry::finalizeAll", [], .bool, true⟩ ]

/-- The declaration of a member, by qualified name. -/
def findMethod (name : String) : Option MethodDecl :=
  methods.find? (fun m => m.name = name)

/-- The special member functions of a class. -/
inductive SpecialMember where
  | defaultConstructor
  | copyConstructor
  | moveConstructor
  | destructor
  | copyAssignment
  | moveAssignment
  deriving DecidableEq, Repr

/-- How a special member function is declared. -/
inductive Definedness where
  | userDeclared
  | defaulted
  | deleted
  deriving DecidableEq, Repr

/-- Lines 26 to 32 of the header: the constructor is declared, the destructor is
`= default`, and both copy and both move operations are `= delete`
(`operator=(const DefinitionRegistry&&)` is a move assignment operator). -/
def specialMember : SpecialMember → Definedness
  | .defaultConstructor => .userDeclared
  | .copyConstructor => .deleted
  | .moveConstructor => .deleted
  | .destructor => .defaulted
  | .copyAssignment => .deleted
  | .moveAssignment => .deleted

/-- The special members whose call makes a `DefinitionRegistry` from an existing one. -/
def fromExisting : List SpecialMember :=
  [.copyConstructor, .moveConstructor, .copyAssignment, .moveAssignment]

/-- A special member can be called when it is not deleted. -/
def callable (m : SpecialMember) : Bool :=
  specialMember m != .deleted

/-- How a container slot holds its `Definition`. -/
inductive Holder where
  | uniquePtr   -- `std::unique_ptr<Definition>`: one owner, not copyable
  | sharedPtr
  | rawPtr
  deriving DecidableEq, Repr

/-- Line 39: `std::unordered_map<std::string, std::unique_ptr<Definition>>`. -/
def registryHolder : Holder := .uniquePtr

end Decl

/-! ## The schema compiler and the message writer

`Definition.hpp`, `MessageWriter.hpp` and the three `.cpp` translation units behind the
bindings are not among the sources; what follows is modelled from the specification. -/

namespace cruise

/-- Modelled from the spec: the error taxonomy of section 7; the sources have no error type. -/
inductive Error where
  | NameConflict
  | UnresolvedReference
  | CyclicDefinition
  | AlreadyCompiled
  | NotCompiled
  | ShapeMismatch
  | CapacityExceeded
  deriving DecidableEq, Repr

/-- Modelled from the spec: the primitive enumeration of a Field's type (`Definition.hpp` is
missing): signed and unsigned integers of 8, 16, 32 and 64 bits, 32 and 64 bit floats,
boolean, string and time. -/
inductive PrimType where
  | int8 | uint8 | int16 | uint16 | int32 | uint32 | int64 | uint64
  | float32 | float64 | bool | string | time
  deriving DecidableEq, Repr

/-- Modelled from the spec: the width of a string slot, "a constant covering an
offset+length pair", 8 in the spec's second example: two 32 bit integers. -/
def slotWidth : Nat := 8

/-- Modelled from the spec: the fixed byte width of a primitive type. The spec gives the
bit widths of the integers and floats; a boolean is taken as one byte, a time as two
32 bit words, and a string occupies its slot. -/
def PrimType.width : PrimType → Nat
  | .int8 => 1 | .uint8 => 1
  | .int16 => 2 | .uint16 => 2
  | .int32 => 4 | .uint32 => 4
  | .int64 => 8 | .uint64 => 8
  | .float32 => 4 | .float64 => 8
  | .bool => 1
  | .string => slotWidth
  | .time => 8

/-- Modelled from the spec: a Field's type, a primitive or a reference to a Schema by name. -/
inductive FieldType where
  | prim (p : PrimType)
  | ref (name : String)
  deriving DecidableEq, Repr

/-- Modelled from the spec: a Field's arity. -/
inductive Arity where
  | scalar
  | fixed (n : Nat)
  | variable
  deriving DecidableEq, Repr

/-- Modelled from the spec: one member of a Schema. -/
structure Field where
  name : String
  type : FieldType
  arity : Arity
  deriving DecidableEq, Repr

/-- Modelled from the spec: a compiled Command. A nested splice is not a constructor: the
referenced Schema's commands are rebased and inlined. An array's element command carries an
offset relative to the start of its element. -/
inductive Command where
  | prim (ty : PrimType) (offset : Nat) (width : Nat)
  | array (elem : Command) (elemWidth : Nat) (count : Option Nat) (offset : Nat)
  | stringSlot (offset : Nat)
  deriving DecidableEq, Repr

/-- Modelled from the spec: rebasing a command by adding the cursor to its offset. -/
def Command.rebase (d : Nat) : Command → Command
  | .prim ty off w => .prim ty (off + d) w
  | .array elem ew cnt off => .array elem ew cnt (off + d)
  | .stringSlot off => .stringSlot (off + d)

/-- Modelled from the spec: the two states of a Schema. -/
inductive State where
  | Building
  | Compiled
  deriving DecidableEq, Repr

/-- Modelled from the spec: a Schema (`cruise::Definition`, whose header is missing): name,
fields in insertion order, state, and the size and commands that compilation computes. -/
structure Definition where
  name : String
  fields : List Field
  state : State
  size : Nat
  commands : List Command
  deriving DecidableEq, Repr

/-- Modelled from the spec: a new empty Schema in state Building. -/
def Definition.new (name : String) : Definition :=
  { name := name, fields := [], state := .Building, size := 0, commands := [] }

/-- Modelled from the spec: `getName()` of the missing `Definition`. -/
def Definition.getName (d : Definition) : String := d.name

/-- Modelled from the spec: `getSize()` of the missing `Definition`; fails before
compilation. -/
def Definition.getSize (d : Definition) : Except Error Nat :=
  if d.state = .Compiled then .ok d.size else .error .NotCompiled

/-- Modelled from the spec: `flattenCommands()` of the missing `Definition`; fails before
compilation. -/
def Definition.flattenCommands (d : Definition) : Except Error (List Command) :=
  if d.state = .Compiled then .ok d.commands else .error .NotCompiled

/-- Modelled from the spec: `addField(name, type, arity)` of the missing `Definition`: the
result of the call and the Schema after it. Fails when the Schema is compiled or the name
is already a Field's. -/
def Definition.addField (d : Definition) (name : String) (type : FieldType) (arity : Arity) :
    Except Error Unit × Definition :=
  if d.state = .Compiled then (.error .AlreadyCompiled, d)
  else if d.fields.any (fun f => f.name = name) then (.error .NameConflict, d)
  else (.ok (), { d with fields := d.fields ++ [⟨name, type, arity⟩] })

/-- Modelled from the spec: one step of the compilation algorithm of section 4.2, for the
Field at the cursor: the commands it emits and the cursor after it. A string is a slot at
every arity; a fixed array of a nested Schema is its splice repeated. A variable-length
Field only needs its referenced Schema to exist. -/
def compileField (lookup : String → Option Definition) (cursor : Nat) (f : Field) :
    Except Error (List Command × Nat) :=
  match f.arity, f.type with
  | .variable, .prim _ => .ok ([.stringSlot cursor], cursor + slotWidth)
  | .variable, .ref r =>
    match lookup r with
    | none => .error .UnresolvedReference
    | some _ => .ok ([.stringSlot cursor], cursor + slotWidth)
  | .scalar, .prim .string => .ok ([.stringSlot cursor], cursor + slotWidth)
  | .scalar, .prim p => .ok ([.prim p cursor p.width], cursor + p.width)
  | .fixed n, .prim .string =>
    .ok ([.array (.stringSlot 0) slotWidth (some n) cursor], cursor + n * slotWidth)
  | .fixed n, .prim p =>
    .ok ([.array (.prim p 0 p.width) p.width (some n) cursor], cursor + n * p.width)
  | .scalar, .ref r =>
    match lookup r with
    | none => .error .UnresolvedReference
    | some d =>
      if d.state = .Compiled then
        .ok (d.commands.map (Command.rebase cursor), cursor + d.size)
      else .error .NotCompiled
  | .fixed n, .ref r =>
    match lookup r with
    | none => .error .UnresolvedReference
    | some d =>
      if d.state = .Compiled then
        .ok ((List.range n).flatMap
              (fun i => d.commands.map (Command.rebase (cursor + i * d.size))),
             cursor + n * d.size)
      else .error .NotCompiled

/-- Modelled from the spec: the walk over the Fields in declared order with a running
cursor; the final cursor is the size. -/
def compileFields (lookup : String → Option Definition) :
    List Field → Nat → Except Error (List Command × Nat)
  | [], cursor => .ok ([], cursor)
  | f :: fs, cursor =>
    match compileField lookup cursor f with
    | .error e => .error e
    | .ok (cs, cursor') =>
      match compileFields lookup fs cursor' with
      | .error e => .error e
      | .ok (rest, size) => .ok (cs ++ rest, size)

/-- Modelled from the spec: compilation of one Schema, once: a compiled Schema is returned
as it is. -/
def Definition.compile (lookup : String → Option Definition) (d : Definition) :
    Except Error Definition :=
  if d.state = .Compiled then .ok d
  else
    match compileFields lookup d.fields 0 with
    | .error e => .error e
    | .ok (cmds, size) => .ok { d with state := .Compiled, size := size, commands := cmds }

/-- Modelled from the spec: the Registry (`DefinitionRegistry.cpp` is missing): the map
`_definitions` of the header, from name to the Schema it owns. -/
structure DefinitionRegistry where
  _definitions : List (String × Definition)
  deriving DecidableEq, Repr

/-- Modelled from the spec: the constructor, an empty Registry. -/
def DefinitionRegistry.new : DefinitionRegistry := ⟨[]⟩

/-- Modelled from the spec: the lookup in `_definitions`. -/
def DefinitionRegistry.find (reg : DefinitionRegistry) (name : String) : Option Definition :=
  reg._definitions.lookup name

/-- Modelled from the spec: `getDefinition(name)`: the handle, or the null sentinel, and the
Registry after the call. -/
def DefinitionRegistry.getDefinition (reg : DefinitionRegistry) (name : String) :
    Option Definition × DefinitionRegistry :=
  (reg.find name, reg)

/-- Modelled from the spec: `createDefinition(name)`: a new empty Schema under `name`; the
null sentinel when the name is taken (the behaviour the spec recommends). -/
def DefinitionRegistry.createDefinition (reg : DefinitionRegistry) (name : String) :
    Option Definition × DefinitionRegistry :=
  match reg.find name with
  | some _ => (none, reg)
  | none => (some (Definition.new name), ⟨reg._definitions ++ [(name, Definition.new name)]⟩)

/-- Modelled from the spec: `addField` through the handle of the Schema under `owner`. -/
def DefinitionRegistry.addField (reg : DefinitionRegistry) (owner : String)
    (name : String) (type : FieldType) (arity : Arity) : DefinitionRegistry :=
  ⟨reg._definitions.map
    (fun e => if e.1 = owner then (e.1, (e.2.addField name type arity).2) else e)⟩

/-- Modelled from the spec: one pass of `finalizeAll`: every Schema whose references are
compiled at the start of the pass is compiled; the others are left for a later pass. -/
def DefinitionRegistry.pass (reg : DefinitionRegistry) : DefinitionRegistry :=
  ⟨reg._definitions.map (fun e =>
    match e.2.compile reg.find with
    | .ok d => (e.1, d)
    | .error _ => e)⟩

/-- Modelled from the spec: `n` passes. -/
def DefinitionRegistry.passes : Nat → DefinitionRegistry → DefinitionRegistry
  | 0, reg => reg
  | n + 1, reg => DefinitionRegistry.passes n reg.pass

/-- Modelled from the spec: whether a Field names a Schema the Registry does not have. -/
def DefinitionRegistry.dangling (reg : DefinitionRegistry) (f : Field) : Bool :=
  match f.type with
  | .prim _ => false
  | .ref r => (reg.find r).isNone

/-- Modelled from the spec: `finalizeAll()`: as many passes as there are Schemas, which
compiles each Schema after the Schemas it references; all or nothing. What stays
uncompiled has a dangling reference or lies on a cycle. -/
def DefinitionRegistry.finalizeAll (reg : DefinitionRegistry) :
    Except Error Unit × DefinitionRegistry :=
  let done := DefinitionRegistry.passes reg._definitions.length reg
  if done._definitions.all (fun e => e.2.state = .Compiled) then (.ok (), done)
  else if reg._definitions.any (fun e => e.2.fields.any reg.dangling) then
    (.error .UnresolvedReference, reg)
  else (.error .CyclicDefinition, reg)

/-- Modelled from the spec: the `bool` that `finalizeAll()` hands to the host (the header
declares `bool finalizeAll() noexcept`; the body is missing): true when the call succeeded,
false for either error. -/
def DefinitionRegistry.finalizeAllOk (reg : DefinitionRegistry) : Bool :=
  match reg.finalizeAll.1 with
  | .ok _ => true
  | .error _ => false

/-- Modelled from the spec: the Registries that the exposed operations can build. -/
inductive Reachable : DefinitionRegistry → Prop where
  | new : Reachable DefinitionRegistry.new
  | create (reg : DefinitionRegistry) (name : String) :
      Reachable reg → Reachable (reg.createDefinition name).2
  | addField (reg : DefinitionRegistry) (owner name : String) (type : FieldType)
      (arity : Arity) : Reachable reg → Reachable (reg.addField owner name type arity)
  | finalize (reg : DefinitionRegistry) : Reachable reg → Reachable reg.finalizeAll.2

/-! ### The message writer -/

/-- A byte of a buffer. -/
abbrev Byte := Fin 256

/-- Modelled from the spec: a field value as `write` receives it (`MessageWriter.hpp` is
missing): an integer, a float as its IEEE 754 bit pattern, a boolean, a time as seconds and
nanoseconds, or the raw bytes of a string or variable-length payload. -/
inductive Value where
  | int (i : Int)
  | float (bits : Nat)
  | bool (b : Bool)
  | time (sec : Nat) (nsec : Nat)
  | bytes (bs : List Byte)
  deriving DecidableEq, Repr

/-- Modelled from the spec: the fixed-width encoding of an unsigned number, least
significant byte first (the spec asks for one documented endianness). -/
def toLE : Nat → Nat → List Byte
  | 0, _ => []
  | w + 1, n => ⟨n % 256, Nat.mod_lt n (by decide)⟩ :: toLE w (n / 256)

/-- Modelled from the spec: the number a little-endian byte sequence encodes. -/
def fromLE : List Byte → Nat
  | [] => 0
  | b :: bs => b.val + 256 * fromLE bs

/-- Modelled from the spec: a signed integer of `w` bytes in two's complement. -/
def encodeSigned (w : Nat) (i : Int) : Option (List Byte) :=
  if -(2 ^ (8 * w - 1) : Int) ≤ i ∧ i < 2 ^ (8 * w - 1) then
    some (toLE w (i % 2 ^ (8 * w)).toNat)
  else none

/-- Modelled from the spec: an unsigned integer of `w` bytes. -/
def encodeUnsigned (w : Nat) (i : Int) : Option (List Byte) :=
  if 0 ≤ i ∧ i < 2 ^ (8 * w) then some (toLE w i.toNat) else none

/-- Modelled from the spec: the bit pattern of a float of `w` bytes. -/
def encodeBits (w : Nat) (bits : Nat) : Option (List Byte) :=
  if bits < 2 ^ (8 * w) then some (toLE w bits) else none

/-- Modelled from the spec: the value a signed integer's bytes encode. -/
def decodeSigned (w : Nat) (bs : List Byte) : Int :=
  if fromLE bs < 2 ^ (8 * w - 1) then (fromLE bs : Int) else (fromLE bs : Int) - 2 ^ (8 * w)

/-- Modelled from the spec: "the type's fixed-width numeric encoding" of a value; `none`
when the value is not of the type (a shape mismatch). A string is never a primitive write. -/
def encodePrim : PrimType → Value → Option (List Byte)
  | .int8, .int i => encodeSigned 1 i
  | .int16, .int i => encodeSigned 2 i
  | .int32, .int i => encodeSigned 4 i
  | .int64, .int i => encodeSigned 8 i
  | .uint8, .int i => encodeUnsigned 1 i
  | .uint16, .int i => encodeUnsigned 2 i
  | .uint32, .int i => encodeUnsigned 4 i
  | .uint64, .int i => encodeUnsigned 8 i
  | .float32, .float bits => encodeBits 4 bits
  | .float64, .float bits => encodeBits 8 bits
  | .bool, .bool b => some [if b then 1 else 0]
  | .time, .time sec nsec =>
    if sec < 2 ^ 32 ∧ nsec < 2 ^ 32 then some (toLE 4 sec ++ toLE 4 nsec) else none
  | _, _ => none

/-- Modelled from the spec: the decoding of a primitive from its bytes. -/
def decodePrim : PrimType → List Byte → Option Value
  | .int8, bs => some (.int (decodeSigned 1 bs))
  | .int16, bs => some (.int (decodeSigned 2 bs))
  | .int32, bs => some (.int (decodeSigned 4 bs))
  | .int64, bs => some (.int (decodeSigned 8 bs))
  | .uint8, bs => some (.int (fromLE bs))
  | .uint16, bs => some (.int (fromLE bs))
  | .uint32, bs => some (.int (fromLE bs))
  | .uint64, bs => some (.int (fromLE bs))
  | .float32, bs => some (.float (fromLE bs))
  | .float64, bs => some (.float (fromLE bs))
  | .bool, bs => if bs = [1] then some (.bool true) else if bs = [0] then some (.bool false)
      else none
  | .time, bs => some (.time (fromLE (bs.take 4)) (fromLE (bs.drop 4)))
  | .string, _ => none

/-- Modelled from the spec: the Writer (`MessageWriter.hpp` is missing): the binary buffer
and the append-only string buffer. -/
structure MessageWriter where
  buffer : List Byte
  bigString : List Byte
  deriving DecidableEq, Repr

/-- Modelled from the spec: the constructor: both buffers empty. -/
def MessageWriter.new : MessageWriter := ⟨[], []⟩

/-- Modelled from the spec: `reserve(capacityBytes)`: the binary buffer grows to at least
the capacity and keeps what it holds. -/
def MessageWriter.reserve (w : MessageWriter) (capacity : Nat) : MessageWriter :=
  { w with buffer := w.buffer ++ List.replicate (capacity - w.buffer.length) 0 }

/-- Modelled from the spec: `getBuffer()`. -/
def MessageWriter.getDataBufferJS (w : MessageWriter) : List Byte := w.buffer

/-- Modelled from the spec: `getStringBuffer()`. -/
def MessageWriter.getStringBufferJS (w : MessageWriter) : List Byte := w.bigString

/-- Modelled from the spec: storing bytes at an offset of the binary buffer; a capacity
error when they do not fit. -/
def putBytes (buf : List Byte) (off : Nat) (bs : List Byte) : Except Error (List Byte) :=
  if off + bs.length ≤ buf.length then
    .ok (buf.take off ++ bs ++ buf.drop (off + bs.length))
  else .error .CapacityExceeded

/-- Modelled from the spec: reading `n` bytes at an offset. -/
def getBytes (buf : List Byte) (off n : Nat) : Option (List Byte) :=
  if off + n ≤ buf.length then some ((buf.drop off).take n) else none

/-- Modelled from the spec: a step repeated for `i`, `i + 1`, ... , `n` times, stopping at
the first failure. -/
def repeatFrom {σ ε : Type} (step : Nat → σ → Except ε σ) : Nat → Nat → σ → Except ε σ
  | _, 0, s => .ok s
  | i, n + 1, s =>
    match step i s with
    | .error e => .error e
    | .ok s' => repeatFrom step (i + 1) n s'

/-- Modelled from the spec: the execution of one command by `write`, on the Writer and the
values still to consume; `base` is the start of the enclosing array element (0 at top
level). A string slot holds the pair (offset, length) as two 32 bit integers. A dynamic
count is declared by the value that precedes the elements. -/
def Command.exec : Command → Nat → MessageWriter × List Value →
    Except Error (MessageWriter × List Value)
  | .prim ty off _, base, (w, v :: vs) =>
    match encodePrim ty v with
    | none => .error .ShapeMismatch
    | some bs =>
      match putBytes w.buffer (base + off) bs with
      | .error e => .error e
      | .ok buf => .ok ({ w with buffer := buf }, vs)
  | .prim _ _ _, _, (_, []) => .error .ShapeMismatch
  | .stringSlot off, base, (w, .bytes bs :: vs) =>
    if w.bigString.length < 2 ^ 32 ∧ bs.length < 2 ^ 32 then
      match putBytes w.buffer (base + off) (toLE 4 w.bigString.length ++ toLE 4 bs.length) with
      | .error e => .error e
      | .ok buf => .ok ({ buffer := buf, bigString := w.bigString ++ bs }, vs)
    else .error .CapacityExceeded
  | .stringSlot _, _, (_, _) => .error .ShapeMismatch
  | .array elem ew (some n) off, base, st =>
    repeatFrom (fun i st' => Command.exec elem (base + off + i * ew) st') 0 n st
  | .array elem ew none off, base, (w, .int k :: vs) =>
    if 0 ≤ k then
      repeatFrom (fun i st' => Command.exec elem (base + off + i * ew) st') 0 k.toNat (w, vs)
    else .error .ShapeMismatch
  | .array _ _ none _, _, (_, _) => .error .ShapeMismatch

/-- Modelled from the spec: the commands executed in order, in one pass. -/
def execAll : List Command → MessageWriter × List Value →
    Except Error (MessageWriter × List Value)
  | [], st => .ok st
  | c :: cs, st =>
    match c.exec 0 st with
    | .error e => .error e
    | .ok st' => execAll cs st'

/-- Modelled from the spec: `write(commands, values)`: a shape mismatch when values are
left over. -/
def MessageWriter.write (w : MessageWriter) (commands : List Command) (values : List Value) :
    Except Error MessageWriter :=
  match execAll commands (w, values) with
  | .error e => .error e
  | .ok (w', []) => .ok w'
  | .ok (_, _ :: _) => .error .ShapeMismatch

/-- Modelled from the spec: a fallible step taken `n` times. -/
def repeatOpt {α : Type} (f : α → Option α) : Nat → α → Option α
  | 0, a => some a
  | n + 1, a =>
    match f a with
    | none => none
    | some a' => repeatOpt f n a'

/-- Modelled from the spec: whether a value sequence starts with what the command consumes,
and what is left; independent of any buffer. -/
def Command.consume : Command → List Value → Option (List Value)
  | .prim ty _ _, v :: vs => if (encodePrim ty v).isSome then some vs else none
  | .prim _ _ _, [] => none
  | .stringSlot _, .bytes _ :: vs => some vs
  | .stringSlot _, _ => none
  | .array elem _ (some n) _, vs => repeatOpt (fun vs' => Command.consume elem vs') n vs
  | .array elem _ none _, .int k :: vs =>
    if 0 ≤ k then repeatOpt (fun vs' => Command.consume elem vs') k.toNat vs else none
  | .array _ _ none _, _ => none

/-- Modelled from the spec: a value sequence matches a command sequence when the commands
consume it entirely. -/
def Matches : List Command → List Value → Bool
  | [], vs => vs.isEmpty
  | c :: cs, vs =>
    match c.consume vs with
    | none => false
    | some rest => Matches cs rest

/-- Modelled from the spec: the total payload of the strings in a value sequence. -/
def payload : List Value → Nat
  | [] => 0
  | .bytes bs :: vs => bs.length + payload vs
  | _ :: vs => payload vs

/-- Modelled from the spec: the values of `n` consecutive elements, read by `step`. -/
def collectFrom (step : Nat → Option (List Value)) : Nat → Nat → Option (List Value)
  | _, 0 => some []
  | i, n + 1 =>
    match step i, collectFrom step (i + 1) n with
    | some vs, some rest => some (vs ++ rest)
    | _, _ => none

/-- Modelled from the spec: the decoding of the values of one command from the two buffers,
by the layout alone; a dynamic count is not in the layout. -/
def Command.decode (buf str : List Byte) : Command → Nat → Option (List Value)
  | .prim ty off _, base =>
    match getBytes buf (base + off) ty.width with
    | none => none
    | some bs => (decodePrim ty bs).map (fun v => [v])
  | .stringSlot off, base =>
    match getBytes buf (base + off) 4, getBytes buf (base + off + 4) 4 with
    | some o, some l => (getBytes str (fromLE o) (fromLE l)).map (fun bs => [Value.bytes bs])
    | _, _ => none
  | .array elem ew (some n) off, base =>
    collectFrom (fun i => Command.decode buf str elem (base + off + i * ew)) 0 n
  | .array _ _ none _, _ => none

/-- Modelled from the spec: decoding a message with a Schema's layout. -/
def decodeAll (buf str : List Byte) : List Command → Option (List Value)
  | [] => some []
  | c :: cs =>
    match c.decode buf str 0, decodeAll buf str cs with
    | some vs, some rest => some (vs ++ rest)
    | _, _ => none

/-! ### Layout invariants -/

/-- The bytes a command touches, relative to its base, lie in `[lo, hi)`, an array's
elements lie in their cells, and every count is static. -/
def Command.Fits : Command → Nat → Nat → Prop
  | .prim ty off _, lo, hi => lo ≤ off ∧ off + ty.width ≤ hi
  | .stringSlot off, lo, hi => lo ≤ off ∧ off + slotWidth ≤ hi
  | .array elem ew (some n) off, lo, hi => lo ≤ off ∧ off + n * ew ≤ hi ∧ elem.Fits 0 ew
  | .array _ _ none _, _, _ => False

/-- The commands occupy consecutive, disjoint parts of `[lo, hi)`, in order. -/
def Layout : List Command → Nat → Nat → Prop
  | [], lo, hi => lo ≤ hi
  | c :: cs, lo, hi => ∃ mid, c.Fits lo mid ∧ Layout cs mid hi

/-- Every compiled Schema a lookup returns has a layout within its size. -/
def LookupValid (lookup : String → Option Definition) : Prop :=
  ∀ r d, lookup r = some d → d.state = .Compiled → Layout d.commands 0 d.size

/-- Every compiled Schema of the Registry has a layout within its size. -/
def DefinitionRegistry.Valid (reg : DefinitionRegistry) : Prop :=
  ∀ e ∈ reg._definitions, e.2.state = .Compiled → Layout e.2.commands 0 e.2.size

/-- The fixed byte width of a Field of scalar arity, in the spec's words: the width of its
primitive type, or the size of the Schema it nests. -/
def fieldWidth (lookup : String → Option Definition) (f : Field) : Nat :=
  match f.type with
  | .prim p => p.width
  | .ref r => ((lookup r).map Definition.size).getD 0

/-- A Field of scalar arity whose type is a primitive or a compiled Schema. -/
def scalarField (lookup : String → Option Definition) (f : Field) : Prop :=
  f.arity = .scalar ∧
    match f.type with
    | .prim _ => True
    | .ref r => ∃ d, lookup r = some d ∧ d.state = .Compiled

/-- What a step of `write` that works on the bytes `[lo, hi)` leaves: the binary buffer keeps
its length and its bytes outside `[lo, hi)`, the string buffer is only appended to, by no
more than the payload consumed, and the values are split into those taken and the rest. -/
def Post (w : MessageWriter) (vals : List Value) (lo hi : Nat)
    (w' : MessageWriter) (rest taken : List Value) : Prop :=
  w'.buffer.length = w.buffer.length ∧
  (∀ i, (i < lo ∨ hi ≤ i) → w'.buffer[i]? = w.buffer[i]?) ∧
  (∃ ext, w'.bigString = w.bigString ++ ext) ∧
  w'.bigString.length + payload rest ≤ w.bigString.length + payload vals ∧
  vals = taken ++ rest

/-- The Registry of the spec's first example: Schema "Point" with `x` and `y`, finalized. -/
def pointRegistry : DefinitionRegistry :=
  ((((DefinitionRegistry.new.createDefinition "Point").2.addField
    "Point" "x" (.prim .float64) .scalar).addField
    "Point" "y" (.prim .float64) .scalar).finalizeAll).2

/-- The Registry of the spec's second example: Schema "Named" with `id` and `label`,
finalized. -/
def namedRegistry : DefinitionRegistry :=
  ((((DefinitionRegistry.new.createDefinition "Named").2.addField
    "Named" "id" (.prim .int32) .scalar).addField
    "Named" "label" (.prim .string) .scalar).finalizeAll).2

/-- A Registry whose only Schema "Pose" has a field of the unregistered Schema "Quat". -/
def danglingRegistry : DefinitionRegistry :=
  (DefinitionRegistry.new.createDefinition "Pose").2.addField
    "Pose" "rot" (.ref "Quat") .scalar

/-- A Registry whose only Schema "Node" nests itself as a scalar. -/
def cyclicRegistry : DefinitionRegistry :=
  (DefinitionRegistry.new.createDefinition "Node").2.addField
    "Node" "self" (.ref "Node") .scalar

/-- A Registry with a Schema "Track" that nests "Point" twice in a fixed array, holds a
fixed array of three int16, a string, and a variable-length array of itself. -/
def trackRegistry : DefinitionRegistry :=
  (((((((((DefinitionRegistry.new.createDefinition "Track").2.addField
    "Track" "ends" (.ref "Point") (.fixed 2)).addField
    "Track" "codes" (.prim .int16) (.fixed 3)).addField
    "Track" "label" (.prim .string) .scalar).addField
    "Track" "next" (.ref "Track") .variable).createDefinition "Point").2.addField
    "Point" "x" (.prim .float64) .scalar).addField
    "Point" "y" (.prim .float64) .scalar).finalizeAll).2

/-- The commands of "Track" in `trackRegistry`. -/
def trackCommands : List Command :=
  [.prim .float64 0 8, .prim .float64 8 8, .prim .float64 16 8, .prim .float64 24 8,
   .array (.prim .int16 0 2) 2 (some 3) 32, .stringSlot 38, .stringSlot 46]

/-- A message for "Track". -/
def trackValues : List Value :=
  [.float 4609434218613702656, .float 4612811918334230528, .float 0, .float 1,
   .int (-2), .int 32767, .int 0, .bytes [104, 105], .bytes [1, 2, 3]]

end cruise

/-! # Theorems -/

namespace Bz2

theorem get_set_same (o : Obj) (k : String) (v : Val) : (o.set k v).get? k = some v := by
  induction o with
  | nil => simp [Obj.set, Obj.get?]
  | cons e rest ih =>
    obtain ⟨k', v'⟩ := e
    by_cases h : k' = k
    · simp [Obj.set, Obj.get?, h]
    · simp [Obj.set, Obj.get?, h, ih]

theorem get_set_other (o : Obj) (k k₂ : String) (v : Val) (hne : k ≠ k₂) :
    (o.set k v).get? k₂ = o.get? k₂ := by
  induction o with
  | nil => simp [Obj.set, Obj.get?, hne]
  | cons e rest ih =>
    obtain ⟨k', v'⟩ := e
    by_cases h : k' = k
    · subst h
      simp [Obj.set, Obj.get?, hne]
    · by_cases h₂ : k' = k₂
      · subst h₂
        simp [Obj.set, Obj.get?, h]
      · simp [Obj.set, Obj.get?, h, h₂, ih]

theorem errorCodeToString_eq_none_iff (code : Int) :
    errorCodeToString code = none ↔ code ∉ errorCodes := by
  unfold errorCodeToString errorCodes
  simp only [List.mem_cons, List.mem_singleton, List.not_mem_nil, or_false, not_or]
  constructor
  · intro h
    split_ifs at h
    tauto
  · intro h
    obtain ⟨h1, h2, h3, h4, h5, h6, h7, h8, h9⟩ := h
    simp [h1, h2, h3, h4, h5, h6, h7, h8, h9]

/-- C8: for every behaviour of the library call, the object `decompress` returns has
"code" equal to the return code, has "buffer" exactly when the return code is `BZ_OK`, and
the buffer is then the view of the `destLen` the library left, starting at `dest`. -/
theorem decompress_code_and_buffer (lib : BuffToBuffDecompress) (dest destLen src srcLen : Nat)
    (small : Int) :
    (decompress lib dest destLen src srcLen small).get? "code"
        = some (Val.int (lib dest destLen src srcLen small 0).1) ∧
    ((decompress lib dest destLen src srcLen small).has "buffer" = true
        ↔ (lib dest destLen src srcLen small 0).1 = BZ_OK) ∧
    (decompress lib dest destLen src srcLen small).get? "buffer"
        = (if (lib dest destLen src srcLen small 0).1 = BZ_OK
           then some (Val.memoryView (lib dest destLen src srcLen small 0).2 dest)
           else none) := by
  have hcb : ("code" : String) ≠ "buffer" := by decide
  have hbc : ("buffer" : String) ≠ "code" := by decide
  have hec : ("error" : String) ≠ "code" := by decide
  have heb : ("error" : String) ≠ "buffer" := by decide
  unfold decompress
  simp only [Obj.has]
  by_cases hok : (lib dest destLen src srcLen small 0).1 = BZ_OK
  · simp only [hok, if_true, true_and, iff_true]
    rw [get_set_other _ _ _ _ hbc, get_set_same, get_set_same]
    simp
  · simp only [hok, if_false, iff_false]
    cases herr : errorCodeToString (lib dest destLen src srcLen small 0).1 with
    | none =>
      simp only
      rw [get_set_same, get_set_other _ _ _ _ hcb]
      simp [Obj.empty, Obj.get?]
    | some str =>
      simp only
      rw [get_set_other _ _ _ _ hec, get_set_same, get_set_other _ _ _ _ heb,
        get_set_other _ _ _ _ hcb]
      simp [Obj.empty, Obj.get?]

/-- C9: the object `decompress` returns has "error" exactly when the return code is one of
the nine error codes, never has both "buffer" and "error", and has "code" only when the
return code is neither `BZ_OK` nor one of the nine. -/
theorem decompress_error_field (lib : BuffToBuffDecompress) (dest destLen src srcLen : Nat)
    (small : Int) :
    ((decompress lib dest destLen src srcLen small).has "error" = true
        ↔ (lib dest destLen src srcLen small 0).1 ∈ errorCodes) ∧
    ((decompress lib dest destLen src srcLen small).has "buffer" = false
        ∨ (decompress lib dest destLen src srcLen small).has "error" = false) ∧
    ((lib dest destLen src srcLen small 0).1 = BZ_OK
        ∨ (lib dest destLen src srcLen small 0).1 ∈ errorCodes
        ∨ (decompress lib dest destLen src srcLen small).keys = ["code"]) := by
  have hcb : ("code" : String) ≠ "buffer" := by decide
  have hce : ("code" : String) ≠ "error" := by decide
  have hbe : ("buffer" : String) ≠ "error" := by decide
  have heb : ("error" : String) ≠ "buffer" := by decide
  have hoknot : BZ_OK ∉ errorCodes := by decide
  unfold decompress
  simp only [Obj.has]
  by_cases hok : (lib dest destLen src srcLen small 0).1 = BZ_OK
  · simp only [hok, if_true, true_or, and_true]
    rw [get_set_other _ _ _ _ hbe, get_set_other _ _ _ _ hce]
    simp [Obj.empty, Obj.get?, hoknot]
  · simp only [hok, if_false, false_or]
    cases herr : errorCodeToString (lib dest destLen src srcLen small 0).1 with
    | none =>
      have hnot := (errorCodeToString_eq_none_iff _).1 herr
      simp only
      rw [get_set_other _ _ _ _ hce, get_set_other _ _ _ _ hcb]
      simp [Obj.empty, Obj.get?, Obj.set, Obj.keys, hnot]
    | some str =>
      have hmem : (lib dest destLen src srcLen small 0).1 ∈ errorCodes := by
        by_contra hnot
        rw [(errorCodeToString_eq_none_iff _).2 hnot] at herr
        cases herr
      simp only
      rw [get_set_same, get_set_other _ _ _ _ heb, get_set_other _ _ _ _ hcb]
      simp [Obj.empty, Obj.get?, hmem]

/-- C10: `errorCodeToString` maps the nine error codes, -1 to -9, each to the spelling of
its constant, every other integer to null, and no two of the nine to the same string. -/
theorem errorCodeToString_table :
    errorCodes = [-1, -2, -3, -4, -5, -6, -7, -8, -9] ∧
    errorCodes.map errorCodeToString =
      [some "BZ_SEQUENCE_ERROR", some "BZ_PARAM_ERROR", some "BZ_MEM_ERROR",
       some "BZ_DATA_ERROR", some "BZ_DATA_ERROR_MAGIC", some "BZ_IO_ERROR",
       some "BZ_UNEXPECTED_EOF", some "BZ_OUTBUFF_FULL", some "BZ_CONFIG_ERROR"] ∧
    (∀ code : Int, code ∈ errorCodes ∨ errorCodeToString code = none) ∧
    errorCodeToString BZ_OK = none ∧
    (∀ code : Int, code ≤ 0 ∨ errorCodeToString code = none) ∧
    (errorCodes.map errorCodeToString).Nodup := by
  refine ⟨by decide, by decide, ?_, by decide, ?_, by decide⟩
  · intro code
    by_cases h : code ∈ errorCodes
    · exact Or.inl h
    · exact Or.inr ((errorCodeToString_eq_none_iff code).2 h)
  · intro code
    by_cases h : code ≤ 0
    · exact Or.inl h
    · refine Or.inr ((errorCodeToString_eq_none_iff code).2 ?_)
      intro hmem
      simp only [errorCodes, BZ_SEQUENCE_ERROR, BZ_PARAM_ERROR, BZ_MEM_ERROR, BZ_DATA_ERROR,
        BZ_DATA_ERROR_MAGIC, BZ_IO_ERROR, BZ_UNEXPECTED_EOF, BZ_OUTBUFF_FULL, BZ_CONFIG_ERROR,
        List.mem_cons, List.mem_singleton, List.not_mem_nil, or_false] at hmem
      omega

end Bz2

namespace Bindings

/-- C5, as stated, fails on the binding table: "finalizeAll" and "getStringBuffer" are not
bound, and the table binds "finalize" and "getBigString", names the claim does not list. -/
theorem exposed_names_not_as_listed :
    "finalizeAll" ∉ exposedNames "DefinitionRegistry" ∧
    "getStringBuffer" ∉ exposedNames "MessageWriter" ∧
    "finalize" ∈ exposedNames "DefinitionRegistry" ∧
    "finalize" ∉ ["create", "get", "finalizeAll"] ∧
    "getBigString" ∈ exposedNames "MessageWriter" ∧
    "getBigString" ∉ ["reserve", "write", "getBuffer", "getStringBuffer"] := by
  decide

/-- C5, amended: the binding table has exactly three classes, which expose, by name,
DefinitionRegistry {create, get, finalize}, Definition {getName, getCommands, getSize,
addField} and MessageWriter {reserve, write, getBuffer, getBigString}; "finalize" is bound
to `finalizeAll` and "getBigString" to the string buffer accessor; besides these the table
binds the constructors of DefinitionRegistry and MessageWriter and the vector type
"IntVector". -/
theorem exposed_names :
    classBindings.map ClassBinding.jsClass = ["Definition", "DefinitionRegistry", "MessageWriter"] ∧
    exposedNames "DefinitionRegistry" = ["create", "get", "finalize"] ∧
    exposedNames "Definition" = ["getName", "getCommands", "getSize", "addField"] ∧
    exposedNames "MessageWriter" = ["reserve", "write", "getBuffer", "getBigString"] ∧
    boundMember "DefinitionRegistry" "finalize" = some "DefinitionRegistry::finalizeAll" ∧
    boundMember "MessageWriter" "getBigString" = some "MessageWriter::getStringBufferJS" ∧
    constructibleClasses = ["DefinitionRegistry", "MessageWriter"] ∧
    registeredVectors = ["IntVector"] := by
  decide

end Bindings

namespace Decl

/-- C7: the copy constructor, the move constructor, the copy assignment and the move
assignment of the Registry are all deleted, so no special member that makes a Registry from
an existing one can be called; only the default constructor and the destructor can; and the
map holds each Definition through a `unique_ptr`. -/
theorem registry_not_copyable :
    fromExisting.all (fun m => specialMember m = .deleted) = true ∧
    fromExisting.all (fun m => !callable m) = true ∧
    (∀ m : SpecialMember, callable m = true ↔ (m = .defaultConstructor ∨ m = .destructor)) ∧
    registryHolder = .uniquePtr := by
  refine ⟨by decide, by decide, ?_, rfl⟩
  intro m
  cases m <;> simp [callable, specialMember]

end Decl

namespace cruise

/-! ### Schema and Registry operations -/

theorem lookup_eq_none_of_not_mem {β : Type} (l : List (String × β)) (name : String)
    (h : name ∉ l.map Prod.fst) : l.lookup name = none := by
  induction l with
  | nil => rfl
  | cons e rest ih =>
    obtain ⟨k, v⟩ := e
    simp only [List.map_cons, List.mem_cons, not_or] at h
    have hne : (name == k) = false := by simpa using h.1
    simp [List.lookup, hne, ih h.2]

theorem mem_of_lookup_eq_some {β : Type} (l : List (String × β)) (name : String) (d : β)
    (h : l.lookup name = some d) : (name, d) ∈ l := by
  induction l with
  | nil => simp [List.lookup] at h
  | cons e rest ih =>
    obtain ⟨k, v⟩ := e
    by_cases hk : name = k
    · subst hk
      simp [List.lookup] at h
      simp [h]
    · have hne : (name == k) = false := by simpa using hk
      simp only [List.lookup, hne] at h
      exact List.mem_cons_of_mem _ (ih h)

theorem lookup_eq_some_of_mem {β : Type} (l : List (String × β)) (name : String) (d : β)
    (hnd : (l.map Prod.fst).Nodup) (h : (name, d) ∈ l) : l.lookup name = some d := by
  induction l with
  | nil => simp at h
  | cons e rest ih =>
    obtain ⟨k, v⟩ := e
    simp only [List.map_cons, List.nodup_cons] at hnd
    rcases List.mem_cons.1 h with heq | hmem
    · cases heq
      simp [List.lookup]
    · have hk : name ≠ k := by
        rintro rfl
        exact hnd.1 (List.mem_map.2 ⟨(name, d), hmem, rfl⟩)
      have hne : (name == k) = false := by simpa using hk
      simp only [List.lookup, hne]
      exact ih hnd.2 hmem

theorem keys_addField (reg : DefinitionRegistry) (owner name : String) (type : FieldType)
    (arity : Arity) :
    (reg.addField owner name type arity)._definitions.map Prod.fst
      = reg._definitions.map Prod.fst := by
  simp only [DefinitionRegistry.addField, List.map_map]
  apply List.map_congr_left
  intro e _
  by_cases h : e.1 = owner <;> simp [h]

theorem keys_pass (reg : DefinitionRegistry) :
    reg.pass._definitions.map Prod.fst = reg._definitions.map Prod.fst := by
  simp only [DefinitionRegistry.pass, List.map_map]
  apply List.map_congr_left
  intro e _
  simp only [Function.comp]
  cases e.2.compile reg.find <;> rfl

theorem keys_passes (n : Nat) (reg : DefinitionRegistry) :
    (DefinitionRegistry.passes n reg)._definitions.map Prod.fst
      = reg._definitions.map Prod.fst := by
  induction n generalizing reg with
  | zero => rfl
  | succ n ih => rw [DefinitionRegistry.passes, ih, keys_pass]

theorem keys_finalizeAll (reg : DefinitionRegistry) :
    reg.finalizeAll.2._definitions.map Prod.fst = reg._definitions.map Prod.fst := by
  unfold DefinitionRegistry.finalizeAll
  simp only
  split_ifs
  · exact keys_passes _ _
  · rfl
  · rfl

theorem keys_nodup_createDefinition (reg : DefinitionRegistry) (name : String)
    (h : (reg._definitions.map Prod.fst).Nodup) :
    ((reg.createDefinition name).2._definitions.map Prod.fst).Nodup := by
  unfold DefinitionRegistry.createDefinition
  cases hf : reg.find name with
  | some d => simpa using h
  | none =>
    simp only [List.map_append, List.map_cons, List.map_nil]
    refine List.Nodup.append h (List.nodup_singleton _) ?_
    intro k hk hk'
    simp only [List.mem_singleton] at hk'
    subst hk'
    obtain ⟨e, he, hek⟩ := List.mem_map.1 hk
    have := lookup_eq_some_of_mem reg._definitions e.1 e.2 h he
    rw [hek] at this
    simp only [DefinitionRegistry.find] at hf
    rw [hf] at this
    cases this

theorem Reachable.keys_nodup {reg : DefinitionRegistry} (h : Reachable reg) :
    (reg._definitions.map Prod.fst).Nodup := by
  induction h with
  | new => simp [DefinitionRegistry.new]
  | create reg name _ ih => exact keys_nodup_createDefinition reg name ih
  | addField reg owner name type arity _ ih => rw [keys_addField]; exact ih
  | finalize reg _ ih => rw [keys_finalizeAll]; exact ih

theorem lookup_isSome_of_mem_keys {β : Type} (l : List (String × β)) (name : String)
    (h : name ∈ l.map Prod.fst) : ∃ d, l.lookup name = some d := by
  induction l with
  | nil => simp at h
  | cons e rest ih =>
    obtain ⟨k, v⟩ := e
    by_cases hk : name = k
    · subst hk
      exact ⟨v, by simp [List.lookup]⟩
    · have hne : (name == k) = false := by simpa using hk
      simp only [List.map_cons, List.mem_cons, hk, false_or] at h
      obtain ⟨d, hd⟩ := ih h
      exact ⟨d, by simp only [List.lookup, hne]; exact hd⟩

theorem lookup_append_new {β : Type} (l : List (String × β)) (name : String) (d : β)
    (h : l.lookup name = none) : (l ++ [(name, d)]).lookup name = some d := by
  induction l with
  | nil => simp [List.lookup]
  | cons e rest ih =>
    obtain ⟨k, v⟩ := e
    by_cases hk : name = k
    · subst hk
      simp [List.lookup] at h
    · have hne : (name == k) = false := by simpa using hk
      simp only [List.lookup, hne] at h
      simp only [List.cons_append, List.lookup, hne]
      exact ih h

/-- C6: for every Registry and every name, each boundary-facing Registry operation returns,
and reports failure through what it returns. `createDefinition` returns the null sentinel
exactly when the name is taken, leaving the Registry as it was, and otherwise a handle to
the Schema now registered under the name. `getDefinition` returns the null sentinel exactly
when no Schema is registered under the name, a registered Schema otherwise, and leaves the
Registry as it was. `finalizeAll` returns a boolean: true exactly when its passes compile
every Schema, and then every Schema of the Registry is Compiled; false otherwise, and then
the Registry is as it was and the error is an unresolved reference or a cycle. The three
members the binding table exposes are declared `noexcept` in the header, with return types
`Definition*`, `Definition*` and `bool`. -/
theorem registry_operations_report_failure (reg : DefinitionRegistry) (name : String) :
    (((reg.find name).isSome = true ∧ reg.createDefinition name = (none, reg)) ∨
      (reg.find name = none ∧
        (reg.createDefinition name).1 = some (Definition.new name) ∧
        (reg.createDefinition name).2.find name = some (Definition.new name))) ∧
    ((reg.getDefinition name).2 = reg ∧
      ((reg.getDefinition name).1 = none ↔ name ∉ reg._definitions.map Prod.fst) ∧
      (∀ d, (reg.getDefinition name).1 = some d → (name, d) ∈ reg._definitions)) ∧
    ((reg.finalizeAllOk = true ↔
        ∀ e ∈ (DefinitionRegistry.passes reg._definitions.length reg)._definitions,
          e.2.state = .Compiled) ∧
      ((reg.finalizeAllOk = true ∧ reg.finalizeAll.1 = .ok () ∧
          ∀ e ∈ reg.finalizeAll.2._definitions, e.2.state = .Compiled) ∨
        (reg.finalizeAllOk = false ∧ reg.finalizeAll.2 = reg ∧
          (reg.finalizeAll.1 = .error .UnresolvedReference ∨
            reg.finalizeAll.1 = .error .CyclicDefinition)))) ∧
    ((Bindings.exposedNames "DefinitionRegistry").map
        (fun n => (Bindings.boundMember "DefinitionRegistry" n).bind Decl.findMethod)
      = [ some ⟨"DefinitionRegistry::createDefinition", ["const std::string&"],
                .definitionPtr, true⟩,
          some ⟨"DefinitionRegistry::getDefinition", ["const std::string&"],
                .definitionPtr, true⟩,
          some ⟨"DefinitionRegistry::finalizeAll", [], .bool, true⟩ ] ∧
      Decl.methods.all (fun m => m.isNoexcept) = true ∧
      Decl.methods.map (fun m => m.ret.nullable) = [true, true, false]) := by
  refine ⟨?_, ⟨rfl, ?_, fun d hd => mem_of_lookup_eq_some _ _ _ hd⟩, ?_, by decide⟩
  · cases hf : reg.find name with
    | some d =>
      exact Or.inl ⟨rfl, by simp [DefinitionRegistry.createDefinition, hf]⟩
    | none =>
      refine Or.inr ⟨rfl, by simp [DefinitionRegistry.createDefinition, hf], ?_⟩
      have hl : reg._definitions.lookup name = none := hf
      simp only [DefinitionRegistry.createDefinition, DefinitionRegistry.find, hl]
      exact lookup_append_new _ _ _ hl
  · constructor
    · intro hnone hmem
      obtain ⟨d, hd⟩ := lookup_isSome_of_mem_keys _ _ hmem
      simp only [DefinitionRegistry.getDefinition, DefinitionRegistry.find] at hnone
      rw [hnone] at hd
      cases hd
    · intro hnot
      exact lookup_eq_none_of_not_mem _ _ hnot
  · by_cases hall : (DefinitionRegistry.passes reg._definitions.length reg)._definitions.all
        (fun e => decide (e.2.state = .Compiled)) = true
    · have hall' : ∀ e ∈ (DefinitionRegistry.passes reg._definitions.length reg)._definitions,
          e.2.state = .Compiled := by
        intro e he
        simpa using (List.all_eq_true.1 hall) e he
      have hfin : reg.finalizeAll
          = (.ok (), DefinitionRegistry.passes reg._definitions.length reg) := by
        simp only [DefinitionRegistry.finalizeAll]
        rw [if_pos hall]
      have hok : reg.finalizeAllOk = true := by
        simp only [DefinitionRegistry.finalizeAllOk, hfin]
      refine ⟨⟨fun _ => hall', fun _ => hok⟩, Or.inl ⟨hok, ?_, ?_⟩⟩
      · rw [hfin]
      · rw [hfin]
        exact hall'
    · have hnot : ¬ ∀ e ∈ (DefinitionRegistry.passes reg._definitions.length reg)._definitions,
          e.2.state = .Compiled := by
        intro h
        apply hall
        rw [List.all_eq_true]
        intro e he
        simpa using h e he
      by_cases hd : reg._definitions.any (fun e => e.2.fields.any reg.dangling) = true
      · have hfin : reg.finalizeAll = (.error .UnresolvedReference, reg) := by
          simp only [DefinitionRegistry.finalizeAll]
          rw [if_neg hall, if_pos hd]
        have hok : reg.finalizeAllOk = false := by
          simp only [DefinitionRegistry.finalizeAllOk, hfin]
        refine ⟨⟨fun h => ?_, fun h => absurd h hnot⟩, Or.inr ⟨hok, ?_, Or.inl ?_⟩⟩
        · rw [hok] at h
          cases h
        · rw [hfin]
        · rw [hfin]
      · have hfin : reg.finalizeAll = (.error .CyclicDefinition, reg) := by
          simp only [DefinitionRegistry.finalizeAll]
          rw [if_neg hall, if_neg hd]
        have hok : reg.finalizeAllOk = false := by
          simp only [DefinitionRegistry.finalizeAllOk, hfin]
        refine ⟨⟨fun h => ?_, fun h => absurd h hnot⟩, Or.inr ⟨hok, ?_, Or.inr ?_⟩⟩
        · rw [hok] at h
          cases h
        · rw [hfin]
        · rw [hfin]

/-- Failures at the boundary on concrete Registries: creating "Point" twice returns the
null sentinel, looking up an unregistered name returns it too, and `finalizeAll` returns
false with an unresolved reference for `danglingRegistry` and with a cycle for
`cyclicRegistry`, while it returns true for the Schemas of `trackRegistry`. -/
theorem registry_failure_examples :
    (pointRegistry.createDefinition "Point").1 = none ∧
    (pointRegistry.getDefinition "Vector").1 = none ∧
    danglingRegistry.finalizeAllOk = false ∧
    danglingRegistry.finalizeAll.1 = .error .UnresolvedReference ∧
    cyclicRegistry.finalizeAllOk = false ∧
    cyclicRegistry.finalizeAll.1 = .error .CyclicDefinition ∧
    trackRegistry.finalizeAllOk = true :=
  ⟨rfl, rfl, rfl, rfl, rfl, rfl, rfl⟩

/-- C3: on a Schema in state Compiled, `addField` fails with AlreadyCompiled for every
field, and the Schema after the call, its field list included, is the Schema before it. -/
theorem addField_after_compile (d : Definition) (hc : d.state = .Compiled)
    (name : String) (type : FieldType) (arity : Arity) :
    (d.addField name type arity).1 = .error .AlreadyCompiled ∧
    (d.addField name type arity).2.fields = d.fields ∧
    (d.addField name type arity).2 = d := by
  simp [Definition.addField, hc]

/-- C4: on every Registry the operations can build, `getDefinition(name)` returns the Schema
registered under the name exactly when there is one, returns the not-found result exactly
when there is none, and leaves the Registry as it was. -/
theorem getDefinition_spec (reg : DefinitionRegistry) (hreach : Reachable reg)
    (name : String) :
    (reg.getDefinition name).2 = reg ∧
    (∀ d, (reg.getDefinition name).1 = some d ↔ (name, d) ∈ reg._definitions) ∧
    ((reg.getDefinition name).1 = none ↔ ∀ d, (name, d) ∉ reg._definitions) := by
  have hnd := hreach.keys_nodup
  refine ⟨rfl, ?_, ?_⟩
  · intro d
    exact ⟨mem_of_lookup_eq_some _ _ _, lookup_eq_some_of_mem _ _ _ hnd⟩
  · constructor
    · intro hnone d hmem
      have := lookup_eq_some_of_mem _ _ _ hnd hmem
      simp only [DefinitionRegistry.getDefinition, DefinitionRegistry.find] at hnone
      rw [hnone] at this
      cases this
    · intro hall
      cases hf : (reg.getDefinition name).1 with
      | none => rfl
      | some d => exact absurd (mem_of_lookup_eq_some _ _ _ hf) (hall d)

end cruise

namespace cruise

/-! ### Sizes of scalar Schemas -/

theorem compileField_scalar (lookup : String → Option Definition) (cursor : Nat) (f : Field)
    (hf : scalarField lookup f) :
    ∃ cs, compileField lookup cursor f = .ok (cs, cursor + fieldWidth lookup f) := by
  obtain ⟨name, type, arity⟩ := f
  obtain ⟨ha, ht⟩ := hf
  simp only at ha ht
  subst ha
  cases type with
  | prim p => cases p <;> exact ⟨_, rfl⟩
  | ref r =>
    obtain ⟨d, hd, hc⟩ := ht
    exact ⟨d.commands.map (Command.rebase cursor), by simp [compileField, fieldWidth, hd, hc]⟩

theorem compileFields_scalar (lookup : String → Option Definition) (fs : List Field)
    (cursor : Nat) (hfs : ∀ f ∈ fs, scalarField lookup f) :
    ∃ cs, compileFields lookup fs cursor
      = .ok (cs, cursor + (fs.map (fieldWidth lookup)).sum) := by
  induction fs generalizing cursor with
  | nil => exact ⟨[], by simp [compileFields]⟩
  | cons f fs ih =>
    obtain ⟨cs, hcs⟩ := compileField_scalar lookup cursor f (hfs f (List.mem_cons_self _ _))
    obtain ⟨rest, hrest⟩ := ih (cursor + fieldWidth lookup f)
      (fun g hg => hfs g (List.mem_cons_of_mem _ hg))
    refine ⟨cs ++ rest, ?_⟩
    simp [compileFields, hcs, hrest, Nat.add_assoc]

/-- C2: a Schema in state Building all of whose fields are scalar compiles, whatever the
other Schemas are, and `getSize()` of the compiled Schema is the sum of the widths of its
fields in declared order; the Schema "Point" with `x` and `y` of type float64, built and
finalized through the Registry, has size 16 and commands write-f64 at 0 and write-f64
at 8. -/
theorem getSize_scalar_schema :
    (∀ (lookup : String → Option Definition) (d : Definition), d.state = .Building →
      (∀ f ∈ d.fields, scalarField lookup f) →
      ∃ d', d.compile lookup = .ok d' ∧ d'.state = .Compiled ∧ d'.fields = d.fields ∧
        d'.getSize = .ok ((d.fields.map (fieldWidth lookup)).sum)) ∧
    (pointRegistry.getDefinition "Point").1.map Definition.getSize = some (.ok 16) ∧
    (pointRegistry.getDefinition "Point").1.map Definition.flattenCommands
      = some (.ok [.prim .float64 0 8, .prim .float64 8 8]) ∧
    (pointRegistry.getDefinition "Point").1.map Definition.fields
      = some [⟨"x", .prim .float64, .scalar⟩, ⟨"y", .prim .float64, .scalar⟩] := by
  refine ⟨?_, rfl, rfl, rfl⟩
  intro lookup d hb hfs
  obtain ⟨cs, hcs⟩ := compileFields_scalar lookup d.fields 0 hfs
  refine ⟨{ d with state := .Compiled, size := (d.fields.map (fieldWidth lookup)).sum,
                   commands := cs }, ?_, rfl, rfl, by simp [Definition.getSize]⟩
  simp [Definition.compile, hb, hcs]

theorem getSize_scalar_schema_witness :
    ∃ d', (Definition.mk "Named" [⟨"id", .prim .int32, .scalar⟩,
              ⟨"label", .prim .string, .scalar⟩] .Building 0 []).compile (fun _ => none)
        = .ok d' ∧ d'.state = .Compiled ∧
      d'.fields = [⟨"id", .prim .int32, .scalar⟩, ⟨"label", .prim .string, .scalar⟩] ∧
      d'.getSize = .ok 12 :=
  getSize_scalar_schema.1 (fun _ => none)
    (Definition.mk "Named" [⟨"id", .prim .int32, .scalar⟩,
      ⟨"label", .prim .string, .scalar⟩] .Building 0 [])
    rfl (by
      intro f hf
      simp only [List.mem_cons, List.mem_singleton, List.not_mem_nil, or_false] at hf
      rcases hf with rfl | rfl <;> exact ⟨rfl, trivial⟩)

theorem addField_after_compile_witness :
    (Definition.mk "Point" [⟨"x", .prim .float64, .scalar⟩] .Compiled 8
        [.prim .float64 0 8]).state = .Compiled ∧
    ((Definition.mk "Point" [⟨"x", .prim .float64, .scalar⟩] .Compiled 8
        [.prim .float64 0 8]).addField "y" (.prim .float64) .scalar).1
      = .error .AlreadyCompiled ∧
    ((Definition.mk "Point" [⟨"x", .prim .float64, .scalar⟩] .Compiled 8
        [.prim .float64 0 8]).addField "y" (.prim .float64) .scalar).2.fields
      = [⟨"x", .prim .float64, .scalar⟩] :=
  ⟨rfl, (addField_after_compile _ rfl "y" (.prim .float64) .scalar).1,
    (addField_after_compile _ rfl "y" (.prim .float64) .scalar).2.1⟩

theorem getDefinition_spec_witness :
    Reachable pointRegistry ∧ (pointRegistry.getDefinition "Point").2 = pointRegistry ∧
    (pointRegistry.getDefinition "Nope").1 = none :=
  ⟨Reachable.finalize _ (Reachable.addField _ _ _ _ _ (Reachable.addField _ _ _ _ _
      (Reachable.create _ _ Reachable.new))),
    (getDefinition_spec pointRegistry
      (Reachable.finalize _ (Reachable.addField _ _ _ _ _ (Reachable.addField _ _ _ _ _
        (Reachable.create _ _ Reachable.new)))) "Point").1,
    by decide⟩

end cruise

namespace cruise

/-! ### Byte-level lemmas -/

theorem toLE_length (w n : Nat) : (toLE w n).length = w := by
  induction w generalizing n with
  | zero => rfl
  | succ w ih => simp [toLE, ih]

theorem fromLE_toLE (w n : Nat) (h : n < 256 ^ w) : fromLE (toLE w n) = n := by
  induction w generalizing n with
  | zero =>
    simp only [pow_zero, Nat.lt_one_iff] at h
    simp [toLE, fromLE, h]
  | succ w ih =>
    have hdiv : n / 256 < 256 ^ w := by
      apply Nat.div_lt_of_lt_mul
      rw [pow_succ] at h
      omega
    simp only [toLE, fromLE, ih _ hdiv]
    omega

theorem pow_two_eight (w : Nat) : (2 : Nat) ^ (8 * w) = 256 ^ w := by
  rw [pow_mul]
  norm_num

theorem encodeUnsigned_spec (w : Nat) (i : Int) (bs : List Byte)
    (h : encodeUnsigned w i = some bs) : bs.length = w ∧ (fromLE bs : Int) = i := by
  unfold encodeUnsigned at h
  split_ifs at h with hr
  cases h
  obtain ⟨h0, h1⟩ := hr
  have hlt : i.toNat < 256 ^ w := by
    rw [← pow_two_eight]
    have : (i.toNat : Int) < ((2 ^ (8 * w) : Nat) : Int) := by
      rw [Int.toNat_of_nonneg h0]
      exact_mod_cast h1
    exact_mod_cast this
  refine ⟨toLE_length _ _, ?_⟩
  rw [fromLE_toLE _ _ hlt, Int.toNat_of_nonneg h0]

theorem encodeBits_spec (w : Nat) (n : Nat) (bs : List Byte)
    (h : encodeBits w n = some bs) : bs.length = w ∧ fromLE bs = n := by
  unfold encodeBits at h
  split_ifs at h with hr
  cases h
  rw [pow_two_eight] at hr
  exact ⟨toLE_length _ _, fromLE_toLE _ _ hr⟩

theorem encodeSigned_spec (w : Nat) (hw : 0 < w) (i : Int) (bs : List Byte)
    (h : encodeSigned w i = some bs) : bs.length = w ∧ decodeSigned w bs = i := by
  unfold encodeSigned at h
  split_ifs at h with hr
  cases h
  obtain ⟨hlo, hhi⟩ := hr
  refine ⟨toLE_length _ _, ?_⟩
  have hM : (2 : Int) ^ (8 * w) = 2 * 2 ^ (8 * w - 1) := by
    have : 8 * w = (8 * w - 1) + 1 := by omega
    conv_lhs => rw [this, pow_succ]
    ring
  have hHpos : (0 : Int) < 2 ^ (8 * w - 1) := by positivity
  have hmod_nonneg : 0 ≤ i % 2 ^ (8 * w) := Int.emod_nonneg _ (by positivity)
  have hmod_lt : i % 2 ^ (8 * w) < 2 ^ (8 * w) := Int.emod_lt_of_pos _ (by positivity)
  have hnat : ((i % 2 ^ (8 * w)).toNat : Int) = i % 2 ^ (8 * w) :=
    Int.toNat_of_nonneg hmod_nonneg
  have hlt : (i % 2 ^ (8 * w)).toNat < 256 ^ w := by
    rw [← pow_two_eight]
    have : ((i % 2 ^ (8 * w)).toNat : Int) < ((2 ^ (8 * w) : Nat) : Int) := by
      rw [hnat]
      exact_mod_cast hmod_lt
    exact_mod_cast this
  unfold decodeSigned
  rw [fromLE_toLE _ _ hlt]
  have hcastH : (((2 : Nat) ^ (8 * w - 1) : Nat) : Int) = (2 : Int) ^ (8 * w - 1) := by
    push_cast
    rfl
  by_cases hneg : 0 ≤ i
  · have hi : i % 2 ^ (8 * w) = i := Int.emod_eq_of_lt hneg (by omega)
    have hcond : (i % 2 ^ (8 * w)).toNat < 2 ^ (8 * w - 1) := by
      have : ((i % 2 ^ (8 * w)).toNat : Int) < (((2 : Nat) ^ (8 * w - 1) : Nat) : Int) := by
        rw [hnat, hi, hcastH]
        exact hhi
      exact_mod_cast this
    rw [if_pos hcond, hnat, hi]
  · have hi : i % 2 ^ (8 * w) = i + 2 ^ (8 * w) := by
      rw [← Int.add_emod_self]
      exact Int.emod_eq_of_lt (by omega) (by omega)
    have hcond : ¬ (i % 2 ^ (8 * w)).toNat < 2 ^ (8 * w - 1) := by
      intro hc
      have : ((i % 2 ^ (8 * w)).toNat : Int) < (((2 : Nat) ^ (8 * w - 1) : Nat) : Int) := by
        exact_mod_cast hc
      rw [hnat, hi, hcastH] at this
      omega
    rw [if_neg hcond, hnat, hi]
    omega

theorem encodePrim_spec (ty : PrimType) (v : Value) (bs : List Byte)
    (h : encodePrim ty v = some bs) : bs.length = ty.width ∧ decodePrim ty bs = some v := by
  cases ty <;> cases v <;> simp only [encodePrim] at h <;> try cases h
  case int8.int i =>
    obtain ⟨h1, h2⟩ := encodeSigned_spec 1 (by decide) i bs h
    exact ⟨h1, by simp [decodePrim, h2]⟩
  case int16.int i =>
    obtain ⟨h1, h2⟩ := encodeSigned_spec 2 (by decide) i bs h
    exact ⟨h1, by simp [decodePrim, h2]⟩
  case int32.int i =>
    obtain ⟨h1, h2⟩ := encodeSigned_spec 4 (by decide) i bs h
    exact ⟨h1, by simp [decodePrim, h2]⟩
  case int64.int i =>
    obtain ⟨h1, h2⟩ := encodeSigned_spec 8 (by decide) i bs h
    exact ⟨h1, by simp [decodePrim, h2]⟩
  case uint8.int i =>
    obtain ⟨h1, h2⟩ := encodeUnsigned_spec 1 i bs h
    exact ⟨h1, by simp [decodePrim, h2]⟩
  case uint16.int i =>
    obtain ⟨h1, h2⟩ := encodeUnsigned_spec 2 i bs h
    exact ⟨h1, by simp [decodePrim, h2]⟩
  case uint32.int i =>
    obtain ⟨h1, h2⟩ := encodeUnsigned_spec 4 i bs h
    exact ⟨h1, by simp [decodePrim, h2]⟩
  case uint64.int i =>
    obtain ⟨h1, h2⟩ := encodeUnsigned_spec 8 i bs h
    exact ⟨h1, by simp [decodePrim, h2]⟩
  case float32.float n =>
    obtain ⟨h1, h2⟩ := encodeBits_spec 4 n bs h
    exact ⟨h1, by simp [decodePrim, h2]⟩
  case float64.float n =>
    obtain ⟨h1, h2⟩ := encodeBits_spec 8 n bs h
    exact ⟨h1, by simp [decodePrim, h2]⟩
  case bool.bool b =>
    cases b <;> simp [decodePrim, PrimType.width]
  case time.time sec nsec =>
    split_ifs at h with hr
    cases h
    obtain ⟨hs, hn⟩ := hr
    have h4 : (toLE 4 sec).length = 4 := toLE_length _ _
    refine ⟨by simp [toLE_length, PrimType.width], ?_⟩
    have ht : (toLE 4 sec ++ toLE 4 nsec).take 4 = toLE 4 sec := by
      rw [List.take_append_of_le_length (by omega), List.take_of_length_le (by omega)]
    have hd : (toLE 4 sec ++ toLE 4 nsec).drop 4 = toLE 4 nsec := by
      rw [List.drop_append_of_le_length (by omega), List.drop_of_length_le (by omega)]
      rfl
    simp only [decodePrim, ht, hd]
    rw [fromLE_toLE 4 sec (by omega), fromLE_toLE 4 nsec (by omega)]

end cruise

namespace cruise

/-! ### Buffer lemmas -/

theorem getElem?_getBytes_aux (buf : List Byte) (off n k : Nat) :
    ((buf.drop off).take n)[k]? = if k < n then buf[off + k]? else none := by
  by_cases hk : k < n
  · simp [hk, List.getElem?_take_of_lt, List.getElem?_drop]
  · simp [hk, List.getElem?_take_eq_none (Nat.le_of_not_lt hk)]

theorem getBytes_congr (buf buf' : List Byte) (off n : Nat)
    (hlen : buf'.length = buf.length)
    (h : ∀ i, off ≤ i → i < off + n → buf'[i]? = buf[i]?) :
    getBytes buf' off n = getBytes buf off n := by
  unfold getBytes
  rw [hlen]
  split_ifs with hle
  · congr 1
    apply List.ext_getElem?
    intro k
    rw [getElem?_getBytes_aux, getElem?_getBytes_aux]
    split_ifs with hk
    · exact h _ (by omega) (by omega)
    · rfl
  · rfl

theorem getBytes_length (buf : List Byte) (off n : Nat) (bs : List Byte)
    (h : getBytes buf off n = some bs) : bs.length = n ∧ off + n ≤ buf.length := by
  unfold getBytes at h
  split_ifs at h with hle
  cases h
  refine ⟨?_, hle⟩
  simp only [List.length_take, List.length_drop]
  omega

theorem getBytes_append_left (str ext : List Byte) (o l : Nat) (bs : List Byte)
    (h : getBytes str o l = some bs) : getBytes (str ++ ext) o l = some bs := by
  obtain ⟨_, hle⟩ := getBytes_length _ _ _ _ h
  unfold getBytes at h ⊢
  rw [if_pos hle] at h
  rw [if_pos (by simp only [List.length_append]; omega)]
  rw [← h]
  congr 1
  rw [List.drop_append_of_le_length (by omega),
    List.take_append_of_le_length (by simp only [List.length_drop]; omega)]

theorem getBytes_append_right (str bs : List Byte) :
    getBytes (str ++ bs) str.length bs.length = some bs := by
  unfold getBytes
  rw [if_pos (by simp)]
  simp

theorem getBytes_split (buf : List Byte) (off a b : Nat) (x y : List Byte)
    (hx : x.length = a) (h : getBytes buf off (a + b) = some (x ++ y)) :
    getBytes buf off a = some x ∧ getBytes buf (off + a) b = some y := by
  obtain ⟨hlen, hle⟩ := getBytes_length _ _ _ _ h
  unfold getBytes at h ⊢
  rw [if_pos hle] at h
  simp only [Option.some.injEq] at h
  rw [if_pos (by omega), if_pos (by omega)]
  have h1 : ((buf.drop off).take (a + b)).take a = x := by
    rw [h, List.take_append_of_le_length (by omega), List.take_of_length_le (by omega)]
  have h2 : ((buf.drop off).take (a + b)).drop a = y := by
    rw [h, List.drop_append_of_le_length (by omega), List.drop_of_length_le (by omega)]
    rfl
  constructor
  · rw [← h1, List.take_take]
    congr 2
    omega
  · rw [← h2, List.drop_take, List.drop_drop]
    congr 2
    omega

theorem putBytes_spec (buf : List Byte) (off : Nat) (bs : List Byte)
    (hcap : off + bs.length ≤ buf.length) :
    ∃ buf', putBytes buf off bs = .ok buf' ∧ buf'.length = buf.length ∧
      getBytes buf' off bs.length = some bs ∧
      ∀ i, (i < off ∨ off + bs.length ≤ i) → buf'[i]? = buf[i]? := by
  refine ⟨buf.take off ++ bs ++ buf.drop (off + bs.length), ?_, ?_, ?_, ?_⟩
  · simp [putBytes, hcap]
  · simp only [List.length_append, List.length_take, List.length_drop]
    omega
  · have htake : (buf.take off).length = off := by
      simp only [List.length_take]
      omega
    unfold getBytes
    rw [if_pos (by simp only [List.length_append, List.length_take, List.length_drop]; omega)]
    congr 1
    rw [List.append_assoc, List.drop_append_of_le_length (by omega),
      List.drop_of_length_le (by omega), List.nil_append,
      List.take_append_of_le_length (by omega), List.take_of_length_le (by omega)]
  · intro i hi
    have htake : (buf.take off).length = off := by
      simp only [List.length_take]
      omega
    rcases hi with hi | hi
    · rw [List.append_assoc, List.getElem?_append_left (by omega),
        List.getElem?_take_of_lt hi]
    · rw [List.getElem?_append_right
        (by simp only [List.length_append, List.length_take]; omega)]
      simp only [List.length_append, htake, List.getElem?_drop]
      congr 1
      omega

end cruise

namespace cruise

/-! ### Layout lemmas -/

theorem Command.Fits.lo_le_hi {c : Command} {lo hi : Nat} (h : c.Fits lo hi) : lo ≤ hi := by
  cases c with
  | prim ty off w =>
    simp only [Command.Fits] at h
    omega
  | stringSlot off =>
    simp only [Command.Fits] at h
    omega
  | array elem ew cnt off =>
    cases cnt with
    | none => exact absurd h (by simp [Command.Fits])
    | some n =>
      simp only [Command.Fits] at h
      omega

theorem Layout.start_le_end {cs : List Command} {lo hi : Nat} (h : Layout cs lo hi) : lo ≤ hi := by
  induction cs generalizing lo with
  | nil => exact h
  | cons c cs ih =>
    obtain ⟨mid, hc, hcs⟩ := h
    exact Nat.le_trans hc.lo_le_hi (ih hcs)

theorem payload_cons_le (v : Value) (vs : List Value) : payload vs ≤ payload (v :: vs) := by
  cases v <;> simp [payload]

theorem Post.refl (w : MessageWriter) (vals : List Value) (lo hi : Nat) :
    Post w vals lo hi w vals [] :=
  ⟨rfl, fun _ _ => rfl, ⟨[], by simp⟩, Nat.le_refl _, rfl⟩

theorem Post.trans {w w₁ w₂ : MessageWriter} {vals r₁ r₂ t₁ t₂ : List Value}
    {lo mid hi : Nat} (hlm : lo ≤ mid) (hmh : mid ≤ hi)
    (h₁ : Post w vals lo mid w₁ r₁ t₁) (h₂ : Post w₁ r₁ mid hi w₂ r₂ t₂) :
    Post w vals lo hi w₂ r₂ (t₁ ++ t₂) := by
  obtain ⟨hl₁, hf₁, ⟨e₁, he₁⟩, hp₁, hv₁⟩ := h₁
  obtain ⟨hl₂, hf₂, ⟨e₂, he₂⟩, hp₂, hv₂⟩ := h₂
  refine ⟨hl₂.trans hl₁, ?_, ⟨e₁ ++ e₂, ?_⟩, Nat.le_trans hp₂ hp₁, ?_⟩
  · intro i hi'
    rw [hf₂ i (by omega), hf₁ i (by omega)]
  · rw [he₂, he₁, List.append_assoc]
  · rw [hv₁, hv₂, List.append_assoc]

theorem collectFrom_congr (f g : Nat → Option (List Value)) (n i : Nat) (vs : List Value)
    (h : ∀ j, i ≤ j → j < i + n → ∀ v, f j = some v → g j = some v)
    (hf : collectFrom f i n = some vs) : collectFrom g i n = some vs := by
  induction n generalizing i vs with
  | zero => simpa [collectFrom] using hf
  | succ n ih =>
    simp only [collectFrom] at hf ⊢
    cases hfi : f i with
    | none => simp [hfi] at hf
    | some v =>
      cases hfr : collectFrom f (i + 1) n with
      | none => simp [hfi, hfr] at hf
      | some r =>
        rw [h i (Nat.le_refl _) (by omega) v hfi,
          ih (i + 1) r (fun j h1 h2 => h j (by omega) (by omega)) hfr]
        simpa [hfi, hfr] using hf

/-- Decoding a command only reads its own bytes of the binary buffer and the part of the
string buffer that was there when it was written. -/
theorem decode_stable (buf buf' str ext : List Byte) (hlen : buf'.length = buf.length)
    (c : Command) :
    ∀ (base lo hi : Nat) (vs : List Value), c.Fits lo hi →
      (∀ i, base + lo ≤ i → i < base + hi → buf'[i]? = buf[i]?) →
      c.decode buf str base = some vs → c.decode buf' (str ++ ext) base = some vs := by
  induction c with
  | prim ty off w =>
    intro base lo hi vs hfit hagree hdec
    simp only [Command.Fits] at hfit
    simp only [Command.decode] at hdec ⊢
    rw [getBytes_congr buf buf' (base + off) ty.width hlen
      (fun i h1 h2 => hagree i (by omega) (by omega))]
    exact hdec
  | stringSlot off =>
    intro base lo hi vs hfit hagree hdec
    simp only [Command.Fits, slotWidth] at hfit
    simp only [Command.decode] at hdec ⊢
    rw [getBytes_congr buf buf' (base + off) 4 hlen
        (fun i h1 h2 => hagree i (by omega) (by omega)),
      getBytes_congr buf buf' (base + off + 4) 4 hlen
        (fun i h1 h2 => hagree i (by omega) (by omega))]
    cases ho : getBytes buf (base + off) 4 with
    | none => simp [ho] at hdec
    | some o =>
      cases hl : getBytes buf (base + off + 4) 4 with
      | none => simp [ho, hl] at hdec
      | some l =>
        simp only [ho, hl] at hdec ⊢
        cases hs : getBytes str (fromLE o) (fromLE l) with
        | none => simp [hs] at hdec
        | some bs =>
          rw [getBytes_append_left _ _ _ _ _ hs]
          simpa [hs] using hdec
  | array elem ew cnt off ih =>
    intro base lo hi vs hfit hagree hdec
    cases cnt with
    | none => exact absurd hfit (by simp [Command.Fits])
    | some n =>
      simp only [Command.Fits] at hfit
      obtain ⟨hlo, hhi, helem⟩ := hfit
      simp only [Command.decode] at hdec ⊢
      refine collectFrom_congr _ _ n 0 vs ?_ hdec
      intro j _ hj v hv
      have hmul : (j + 1) * ew ≤ n * ew := Nat.mul_le_mul_right ew (by omega)
      have hsucc : (j + 1) * ew = j * ew + ew := by ring
      exact ih (base + off + j * ew) 0 ew v helem
        (fun i h1 h2 => hagree i (by omega) (by omega)) hv

end cruise

namespace cruise

/-! ### One command: execution followed by decoding

The only failure left to a command that fits the buffer, on values it consumes, is the
capacity error of a string slot whose offset or length passes 32 bits. -/

/-- The elements of an array, from index `i` on: executing the element command on each of
`n` cells and decoding the cells gives the values back. -/
theorem repeat_exec_spec (elem : Command) (ew start : Nat)
    (helem : elem.Fits 0 ew)
    (ih : ∀ (base : Nat) (w : MessageWriter) (vals rest : List Value),
      elem.consume vals = some rest → base + ew ≤ w.buffer.length →
      (elem.exec base (w, vals) = .error .CapacityExceeded ∧
        2 ^ 32 ≤ w.bigString.length + payload vals) ∨
      ∃ w' taken, elem.exec base (w, vals) = .ok (w', rest) ∧
        Post w vals base (base + ew) w' rest taken ∧
        elem.decode w'.buffer w'.bigString base = some taken) :
    ∀ (n i : Nat) (w : MessageWriter) (vals rest : List Value),
      repeatOpt (fun vs' => elem.consume vs') n vals = some rest →
      start + (i + n) * ew ≤ w.buffer.length →
      (repeatFrom (fun j st' => elem.exec (start + j * ew) st') i n (w, vals)
          = .error .CapacityExceeded ∧
        2 ^ 32 ≤ w.bigString.length + payload vals) ∨
      ∃ w' taken,
        repeatFrom (fun j st' => elem.exec (start + j * ew) st') i n (w, vals)
          = .ok (w', rest) ∧
        Post w vals (start + i * ew) (start + (i + n) * ew) w' rest taken ∧
        collectFrom (fun j => elem.decode w'.buffer w'.bigString (start + j * ew)) i n
          = some taken := by
  intro n
  induction n with
  | zero =>
    intro i w vals rest hcons _
    simp only [repeatOpt, Option.some.injEq] at hcons
    subst hcons
    exact Or.inr ⟨w, [], rfl,
      by simpa using Post.refl w vals (start + i * ew) (start + i * ew), rfl⟩
  | succ n ihn =>
    intro i w vals rest hcons hcap
    simp only [repeatOpt] at hcons
    cases hc : elem.consume vals with
    | none => simp [hc] at hcons
    | some r₁ =>
      simp only [hc] at hcons
      have hsucc : (i + 1) * ew = i * ew + ew := by ring
      have hidx : i + (n + 1) = i + 1 + n := by omega
      have hmul : (i + 1) * ew ≤ (i + 1 + n) * ew := Nat.mul_le_mul_right ew (by omega)
      rw [hidx] at hcap ⊢
      rcases ih (start + i * ew) w vals r₁ hc (by omega) with
        ⟨herr, hbig⟩ | ⟨w₁, t₁, hex₁, hpost₁, hdec₁⟩
      · exact Or.inl ⟨by simp only [repeatFrom, herr], hbig⟩
      · have hlen₁ := hpost₁.1
        have hpay₁ := hpost₁.2.2.2.1
        rcases ihn (i + 1) w₁ r₁ rest hcons (by omega) with
          ⟨herr, hbig⟩ | ⟨w₂, t₂, hex₂, hpost₂, hdec₂⟩
        · exact Or.inl ⟨by simp only [repeatFrom, hex₁]; exact herr, by omega⟩
        · obtain ⟨ext, hext⟩ := hpost₂.2.2.1
          refine Or.inr ⟨w₂, t₁ ++ t₂, ?_, ?_, ?_⟩
          · simp only [repeatFrom, hex₁]
            exact hex₂
          · have hp₁ : Post w vals (start + i * ew) (start + (i + 1) * ew) w₁ r₁ t₁ := by
              rw [hsucc, ← Nat.add_assoc]
              exact hpost₁
            exact Post.trans (by omega) (by omega) hp₁ hpost₂
          · have hstable :
                elem.decode w₂.buffer w₂.bigString (start + i * ew) = some t₁ := by
              rw [hext]
              refine decode_stable w₁.buffer w₂.buffer w₁.bigString ext hpost₂.1 elem
                (start + i * ew) 0 ew t₁ helem ?_ hdec₁
              intro j _ hj
              exact hpost₂.2.1 j (Or.inl (by omega))
            simp only [collectFrom, hstable, hdec₂]

/-- A command that fits in `[lo, hi)` of a buffer that is long enough, on values it
consumes: `exec` reports the capacity error only when the string buffer would pass 32 bits,
and otherwise succeeds, touches only its bytes, and `decode` reads the values back. -/
theorem exec_spec (c : Command) :
    ∀ (base lo hi : Nat) (w : MessageWriter) (vals rest : List Value),
      c.Fits lo hi → c.consume vals = some rest → base + hi ≤ w.buffer.length →
      (c.exec base (w, vals) = .error .CapacityExceeded ∧
        2 ^ 32 ≤ w.bigString.length + payload vals) ∨
      ∃ w' taken, c.exec base (w, vals) = .ok (w', rest) ∧
        Post w vals (base + lo) (base + hi) w' rest taken ∧
        c.decode w'.buffer w'.bigString base = some taken := by
  induction c with
  | prim ty off wd =>
    intro base lo hi w vals rest hfit hcons hcap
    simp only [Command.Fits] at hfit
    cases vals with
    | nil => simp [Command.consume] at hcons
    | cons v vs =>
      simp only [Command.consume] at hcons
      cases henc : encodePrim ty v with
      | none => simp [henc] at hcons
      | some bs =>
        simp only [henc, Option.isSome_some, if_true, Option.some.injEq] at hcons
        subst hcons
        obtain ⟨hbl, hdecp⟩ := encodePrim_spec ty v bs henc
        obtain ⟨buf', hput, hlen, hget, hframe⟩ :=
          putBytes_spec w.buffer (base + off) bs (by omega)
        refine Or.inr
          ⟨{ w with buffer := buf' }, [v], ?_, ⟨hlen, ?_, ⟨[], by simp⟩, ?_, rfl⟩, ?_⟩
        · simp [Command.exec, henc, hput]
        · intro i hi'
          exact hframe i (by omega)
        · have := payload_cons_le v vs
          simp only
          omega
        · simp only [Command.decode]
          rw [← hbl, hget]
          simp [hdecp]
  | stringSlot off =>
    intro base lo hi w vals rest hfit hcons hcap
    simp only [Command.Fits, slotWidth] at hfit
    cases vals with
    | nil => simp [Command.consume] at hcons
    | cons v vs =>
      cases v with
      | bytes bs =>
        simp only [Command.consume, Option.some.injEq] at hcons
        subst hcons
        by_cases hfits : w.bigString.length < 2 ^ 32 ∧ bs.length < 2 ^ 32
        · obtain ⟨ho, hl⟩ := hfits
          have hlen8 : (toLE 4 w.bigString.length ++ toLE 4 bs.length).length = 8 := by
            simp [toLE_length]
          obtain ⟨buf', hput, hlen, hget, hframe⟩ :=
            putBytes_spec w.buffer (base + off)
              (toLE 4 w.bigString.length ++ toLE 4 bs.length) (by omega)
          rw [hlen8] at hget hframe
          obtain ⟨hg₁, hg₂⟩ :=
            getBytes_split buf' (base + off) 4 4 _ _ (toLE_length 4 _) hget
          refine Or.inr
            ⟨{ buffer := buf', bigString := w.bigString ++ bs }, [.bytes bs], ?_,
              ⟨hlen, ?_, ⟨bs, rfl⟩, ?_, rfl⟩, ?_⟩
          · simp only [Command.exec]
            rw [if_pos ⟨ho, hl⟩, hput]
          · intro i hi'
            exact hframe i (by omega)
          · simp only [payload, List.length_append]
            omega
          · simp only [Command.decode, hg₁, hg₂]
            rw [fromLE_toLE 4 _ (by omega), fromLE_toLE 4 _ (by omega),
              getBytes_append_right]
            rfl
        · refine Or.inl ⟨?_, ?_⟩
          · simp only [Command.exec]
            rw [if_neg hfits]
          · simp only [payload]
            rw [not_and_or] at hfits
            omega
      | int i => simp [Command.consume] at hcons
      | float b => simp [Command.consume] at hcons
      | bool b => simp [Command.consume] at hcons
      | time s n => simp [Command.consume] at hcons
  | array elem ew cnt off ih =>
    intro base lo hi w vals rest hfit hcons hcap
    cases cnt with
    | none => exact absurd hfit (by simp [Command.Fits])
    | some n =>
      simp only [Command.Fits] at hfit
      obtain ⟨hlo, hhi, helem⟩ := hfit
      simp only [Command.consume] at hcons
      have ih' : ∀ (b : Nat) (w : MessageWriter) (vals rest : List Value),
          elem.consume vals = some rest → b + ew ≤ w.buffer.length →
          (elem.exec b (w, vals) = .error .CapacityExceeded ∧
            2 ^ 32 ≤ w.bigString.length + payload vals) ∨
          ∃ w' taken, elem.exec b (w, vals) = .ok (w', rest) ∧
            Post w vals b (b + ew) w' rest taken ∧
            elem.decode w'.buffer w'.bigString b = some taken := by
        intro b w vals rest h1 h2
        simpa using ih b 0 ew w vals rest helem h1 h2
      rcases repeat_exec_spec elem ew (base + off) helem ih' n 0 w vals rest hcons
          (by simp only [Nat.zero_add]; omega) with
        ⟨herr, hbig⟩ | ⟨w', taken, hex, hpost, hdec⟩
      · exact Or.inl ⟨by simpa [Command.exec] using herr, hbig⟩
      · simp only [Nat.zero_add, Nat.zero_mul, Nat.add_zero] at hpost
        refine Or.inr ⟨w', taken, ?_, ?_, ?_⟩
        · simpa [Command.exec] using hex
        · obtain ⟨h1, h2, h3, h4, h5⟩ := hpost
          exact ⟨h1, fun i hi' => h2 i (by omega), h3, h4, h5⟩
        · simpa [Command.decode] using hdec

/-! ### A whole command sequence -/

/-- A sequence of commands laid out in `[lo, hi)` of a buffer that is long enough, on values
that match it: short of the capacity error of the string buffer, all commands execute, and
decoding gives the values back. -/
theorem execAll_spec (cmds : List Command) :
    ∀ (lo hi : Nat) (w : MessageWriter) (vals : List Value),
      Layout cmds lo hi → Matches cmds vals = true → hi ≤ w.buffer.length →
      (execAll cmds (w, vals) = .error .CapacityExceeded ∧
        2 ^ 32 ≤ w.bigString.length + payload vals) ∨
      ∃ w', execAll cmds (w, vals) = .ok (w', []) ∧
        Post w vals lo hi w' [] vals ∧
        decodeAll w'.buffer w'.bigString cmds = some vals := by
  induction cmds with
  | nil =>
    intro lo hi w vals _ hm _
    simp only [Matches, List.isEmpty_iff] at hm
    subst hm
    exact Or.inr ⟨w, rfl, Post.refl w [] lo hi, rfl⟩
  | cons c cs ih =>
    intro lo hi w vals hlay hm hcap
    obtain ⟨mid, hfit, hrest⟩ := hlay
    have hlm := hfit.lo_le_hi
    have hmh := hrest.start_le_end
    simp only [Matches] at hm
    cases hc : c.consume vals with
    | none => simp [hc] at hm
    | some r₁ =>
      simp only [hc] at hm
      rcases exec_spec c 0 lo mid w vals r₁ hfit hc (by omega) with
        ⟨herr, hbig⟩ | ⟨w₁, t₁, hex₁, hpost₁, hdec₁⟩
      · exact Or.inl ⟨by simp only [execAll, herr], hbig⟩
      · simp only [Nat.zero_add] at hpost₁
        have hlen₁ := hpost₁.1
        have hpay₁ := hpost₁.2.2.2.1
        rcases ih mid hi w₁ r₁ hrest hm (by omega) with
          ⟨herr, hbig⟩ | ⟨w₂, hex₂, hpost₂, hdec₂⟩
        · exact Or.inl ⟨by simp only [execAll, hex₁]; exact herr, by omega⟩
        · obtain ⟨ext, hext⟩ := hpost₂.2.2.1
          have hvals : vals = t₁ ++ r₁ := hpost₁.2.2.2.2
          refine Or.inr ⟨w₂, ?_, ?_, ?_⟩
          · simp only [execAll, hex₁]
            exact hex₂
          · have := Post.trans hlm hmh hpost₁ hpost₂
            rw [hvals]
            rw [hvals] at this
            obtain ⟨h1, h2, h3, h4, _⟩ := this
            exact ⟨h1, h2, h3, h4, by simp⟩
          · have hstable : c.decode w₂.buffer w₂.bigString 0 = some t₁ := by
              rw [hext]
              refine decode_stable w₁.buffer w₂.buffer w₁.bigString ext hpost₂.1 c
                0 lo mid t₁ hfit ?_ hdec₁
              intro j _ hj
              exact hpost₂.2.1 j (Or.inl (by omega))
            simp only [decodeAll, hstable, hdec₂]
            rw [hvals]

end cruise

namespace cruise

/-! ### Compilation produces a layout -/

theorem Command.Fits.mono {c : Command} {lo hi lo' hi' : Nat} (h : c.Fits lo hi)
    (hlo : lo' ≤ lo) (hhi : hi ≤ hi') : c.Fits lo' hi' := by
  cases c with
  | prim ty off w =>
    simp only [Command.Fits] at h ⊢
    omega
  | stringSlot off =>
    simp only [Command.Fits] at h ⊢
    omega
  | array elem ew cnt off =>
    cases cnt with
    | none => exact absurd h (by simp [Command.Fits])
    | some n =>
      simp only [Command.Fits] at h ⊢
      exact ⟨by omega, by omega, h.2.2⟩

theorem Command.Fits.rebase {c : Command} {lo hi : Nat} (h : c.Fits lo hi) (d : Nat) :
    (c.rebase d).Fits (lo + d) (hi + d) := by
  cases c with
  | prim ty off w =>
    simp only [Command.Fits, Command.rebase] at h ⊢
    omega
  | stringSlot off =>
    simp only [Command.Fits, Command.rebase] at h ⊢
    omega
  | array elem ew cnt off =>
    cases cnt with
    | none => exact absurd h (by simp [Command.Fits])
    | some n =>
      simp only [Command.Fits, Command.rebase] at h ⊢
      exact ⟨by omega, by omega, h.2.2⟩

theorem Layout.lower {cs : List Command} {lo hi lo' : Nat} (h : Layout cs lo hi)
    (hlo : lo' ≤ lo) : Layout cs lo' hi := by
  cases cs with
  | nil =>
    simp only [Layout] at h ⊢
    omega
  | cons c cs =>
    obtain ⟨mid, hc, hcs⟩ := h
    exact ⟨mid, hc.mono hlo (Nat.le_refl _), hcs⟩

theorem Layout.append {a b : List Command} {lo mid hi : Nat} (ha : Layout a lo mid)
    (hb : Layout b mid hi) : Layout (a ++ b) lo hi := by
  induction a generalizing lo with
  | nil => exact hb.lower ha
  | cons c cs ih =>
    obtain ⟨m, hc, hcs⟩ := ha
    exact ⟨m, hc, ih hcs⟩

theorem Layout.map_rebase {cs : List Command} {lo hi : Nat} (h : Layout cs lo hi) (d : Nat) :
    Layout (cs.map (Command.rebase d)) (lo + d) (hi + d) := by
  induction cs generalizing lo with
  | nil =>
    simp only [List.map_nil, Layout] at h ⊢
    omega
  | cons c cs ih =>
    obtain ⟨m, hc, hcs⟩ := h
    exact ⟨m + d, hc.rebase d, ih hcs⟩

theorem Layout.splice {cs : List Command} {size : Nat} (h : Layout cs 0 size) (cursor : Nat) :
    Layout (cs.map (Command.rebase cursor)) cursor (cursor + size) := by
  have := h.map_rebase cursor
  rwa [Nat.zero_add, Nat.add_comm size cursor] at this

theorem Layout.splice_repeat {cs : List Command} {size : Nat} (h : Layout cs 0 size)
    (cursor n : Nat) :
    Layout ((List.range n).flatMap (fun i => cs.map (Command.rebase (cursor + i * size))))
      cursor (cursor + n * size) := by
  induction n with
  | zero => simp [Layout]
  | succ n ih =>
    rw [List.range_succ, List.flatMap_append, List.flatMap_singleton]
    refine Layout.append ih ?_
    have := h.splice (cursor + n * size)
    have he : cursor + (n + 1) * size = cursor + n * size + size := by ring
    rw [he]
    exact this

theorem compileField_layout (lookup : String → Option Definition) (hl : LookupValid lookup)
    (cursor : Nat) (f : Field) (cs : List Command) (cursor' : Nat)
    (h : compileField lookup cursor f = .ok (cs, cursor')) : Layout cs cursor cursor' := by
  obtain ⟨name, type, arity⟩ := f
  have hslot : Layout [Command.stringSlot cursor] cursor (cursor + slotWidth) :=
    ⟨cursor + slotWidth, ⟨Nat.le_refl _, Nat.le_refl _⟩, Nat.le_refl _⟩
  cases arity with
  | scalar =>
    cases type with
    | prim p =>
      cases p <;> simp only [compileField, Except.ok.injEq, Prod.mk.injEq] at h <;>
        obtain ⟨rfl, rfl⟩ := h <;>
        first
          | exact hslot
          | exact ⟨_, ⟨Nat.le_refl _, Nat.le_refl _⟩, Nat.le_refl _⟩
    | ref r =>
      simp only [compileField] at h
      cases hr : lookup r with
      | none => simp [hr] at h
      | some d =>
        simp only [hr] at h
        split_ifs at h with hc
        simp only [Except.ok.injEq, Prod.mk.injEq] at h
        obtain ⟨rfl, rfl⟩ := h
        exact (hl r d hr hc).splice cursor
  | fixed n =>
    cases type with
    | prim p =>
      cases p <;> simp only [compileField, Except.ok.injEq, Prod.mk.injEq] at h <;>
        obtain ⟨rfl, rfl⟩ := h <;>
        exact ⟨_, ⟨Nat.le_refl _, Nat.le_refl _, ⟨Nat.le_refl _, by simp [slotWidth]⟩⟩,
          Nat.le_refl _⟩
    | ref r =>
      simp only [compileField] at h
      cases hr : lookup r with
      | none => simp [hr] at h
      | some d =>
        simp only [hr] at h
        split_ifs at h with hc
        simp only [Except.ok.injEq, Prod.mk.injEq] at h
        obtain ⟨rfl, rfl⟩ := h
        exact (hl r d hr hc).splice_repeat cursor n
  | _ =>
    cases type with
    | prim p =>
      simp only [compileField, Except.ok.injEq, Prod.mk.injEq] at h
      obtain ⟨rfl, rfl⟩ := h
      exact hslot
    | ref r =>
      simp only [compileField] at h
      cases hr : lookup r with
      | none => simp [hr] at h
      | some d =>
        simp only [hr, Except.ok.injEq, Prod.mk.injEq] at h
        obtain ⟨rfl, rfl⟩ := h
        exact hslot

theorem compileFields_layout (lookup : String → Option Definition) (hl : LookupValid lookup)
    (fs : List Field) :
    ∀ (cursor : Nat) (cs : List Command) (size : Nat),
      compileFields lookup fs cursor = .ok (cs, size) → Layout cs cursor size := by
  induction fs with
  | nil =>
    intro cursor cs size h
    simp only [compileFields, Except.ok.injEq, Prod.mk.injEq] at h
    obtain ⟨rfl, rfl⟩ := h
    exact Nat.le_refl _
  | cons f fs ih =>
    intro cursor cs size h
    simp only [compileFields] at h
    cases hf : compileField lookup cursor f with
    | error e => simp [hf] at h
    | ok r =>
      obtain ⟨c₁, cur₁⟩ := r
      simp only [hf] at h
      cases hr : compileFields lookup fs cur₁ with
      | error e => simp [hr] at h
      | ok r₂ =>
        obtain ⟨c₂, sz⟩ := r₂
        simp only [hr, Except.ok.injEq, Prod.mk.injEq] at h
        obtain ⟨rfl, rfl⟩ := h
        exact Layout.append (compileField_layout lookup hl cursor f c₁ cur₁ hf)
          (ih cur₁ c₂ sz hr)

theorem compile_layout (lookup : String → Option Definition) (hl : LookupValid lookup)
    (d d' : Definition) (hd : d.state = .Compiled → Layout d.commands 0 d.size)
    (h : d.compile lookup = .ok d') : Layout d'.commands 0 d'.size := by
  unfold Definition.compile at h
  split_ifs at h with hc
  · simp only [Except.ok.injEq] at h
    subst h
    exact hd hc
  · cases hr : compileFields lookup d.fields 0 with
    | error e => simp [hr] at h
    | ok r =>
      obtain ⟨cs, sz⟩ := r
      simp only [hr, Except.ok.injEq] at h
      subst h
      exact compileFields_layout lookup hl d.fields 0 cs sz hr

theorem DefinitionRegistry.Valid.lookup {reg : DefinitionRegistry} (h : reg.Valid) :
    LookupValid reg.find := by
  intro r d hr hc
  exact h (r, d) (mem_of_lookup_eq_some _ _ _ hr) hc

theorem DefinitionRegistry.Valid.pass {reg : DefinitionRegistry} (h : reg.Valid) :
    reg.pass.Valid := by
  intro e he hc
  simp only [DefinitionRegistry.pass, List.mem_map] at he
  obtain ⟨e₀, he₀, heq⟩ := he
  cases hcomp : e₀.2.compile reg.find with
  | error err =>
    simp only [hcomp] at heq
    subst heq
    exact h e₀ he₀ hc
  | ok d' =>
    simp only [hcomp] at heq
    subst heq
    exact compile_layout reg.find h.lookup e₀.2 d' (h e₀ he₀) hcomp

theorem DefinitionRegistry.Valid.passes {reg : DefinitionRegistry} (h : reg.Valid) (n : Nat) :
    (DefinitionRegistry.passes n reg).Valid := by
  induction n generalizing reg with
  | zero => exact h
  | succ n ih => exact ih h.pass

theorem Reachable.valid {reg : DefinitionRegistry} (h : Reachable reg) : reg.Valid := by
  induction h with
  | new =>
    intro e he
    simp [DefinitionRegistry.new] at he
  | create reg name _ ih =>
    unfold DefinitionRegistry.createDefinition
    cases reg.find name with
    | some d => exact ih
    | none =>
      intro e he hc
      simp only [List.mem_append, List.mem_singleton] at he
      rcases he with he | rfl
      · exact ih e he hc
      · simp [Definition.new] at hc
  | addField reg owner name type arity _ ih =>
    intro e he hc
    simp only [DefinitionRegistry.addField, List.mem_map] at he
    obtain ⟨e₀, he₀, heq⟩ := he
    by_cases ho : e₀.1 = owner
    · simp only [ho, if_true] at heq
      subst heq
      simp only [Definition.addField] at hc ⊢
      by_cases hs : e₀.2.state = .Compiled
      · simp only [hs, if_true]
        exact ih e₀ he₀ hs
      · simp only [hs, if_false] at hc
        split_ifs at hc with hdup
        · exact absurd hc hs
        · exact absurd hc hs
    · simp only [ho, if_false] at heq
      subst heq
      exact ih e₀ he₀ hc
  | finalize reg _ ih =>
    unfold DefinitionRegistry.finalizeAll
    simp only
    split_ifs
    · exact ih.passes _
    · exact ih
    · exact ih

end cruise

namespace cruise

/-! ### Round trip -/

theorem reserve_length (w : MessageWriter) (capacity : Nat) :
    capacity ≤ (w.reserve capacity).buffer.length ∧
    (w.reserve capacity).bigString = w.bigString := by
  refine ⟨?_, rfl⟩
  simp only [MessageWriter.reserve, List.length_append, List.length_replicate]
  omega

/-- C1: for every Schema that a Registry built by the exposed operations holds compiled,
with commands `cmds` and size `size`, and every value sequence that matches `cmds`, `write`
on a Writer reserved to `size` either reports the capacity error, which it does only when
the string buffer would pass what a 32 bit slot can address, or succeeds, and then decoding
the binary buffer and the string buffer with `cmds` gives back exactly the values written. -/
theorem write_then_decode (reg : DefinitionRegistry) (hreach : Reachable reg)
    (name : String) (d : Definition) (cmds : List Command) (size : Nat)
    (hget : (reg.getDefinition name).1 = some d)
    (hcmds : d.flattenCommands = .ok cmds) (hsize : d.getSize = .ok size)
    (w : MessageWriter) (vals : List Value) (hm : Matches cmds vals = true) :
    ((w.reserve size).write cmds vals = .error .CapacityExceeded ∧
      2 ^ 32 ≤ w.bigString.length + payload vals) ∨
    ∃ w', (w.reserve size).write cmds vals = .ok w' ∧
      decodeAll w'.getDataBufferJS w'.getStringBufferJS cmds = some vals := by
  have hmem := mem_of_lookup_eq_some _ _ _ hget
  have hc : d.state = .Compiled := by
    by_contra hne
    simp [Definition.getSize, hne] at hsize
  simp only [Definition.flattenCommands, hc, if_true, Except.ok.injEq] at hcmds
  simp only [Definition.getSize, hc, if_true, Except.ok.injEq] at hsize
  have hlay : Layout cmds 0 size := by
    have := hreach.valid (name, d) hmem hc
    rwa [hcmds, hsize] at this
  obtain ⟨hcap, hbig⟩ := reserve_length w size
  rcases execAll_spec cmds 0 size (w.reserve size) vals hlay hm hcap with
    ⟨herr, hfull⟩ | ⟨w', hex, _, hdec⟩
  · refine Or.inl ⟨?_, by rw [hbig] at hfull; exact hfull⟩
    simp only [MessageWriter.write, herr]
  · refine Or.inr ⟨w', ?_, hdec⟩
    simp only [MessageWriter.write, hex]

theorem write_then_decode_witness :
    ∃ w', (MessageWriter.new.reserve 54).write trackCommands trackValues = .ok w' ∧
      decodeAll w'.getDataBufferJS w'.getStringBufferJS trackCommands = some trackValues :=
  (write_then_decode trackRegistry
    (Reachable.finalize _ (Reachable.addField _ _ _ _ _ (Reachable.addField _ _ _ _ _
      (Reachable.create _ _ (Reachable.addField _ _ _ _ _ (Reachable.addField _ _ _ _ _
        (Reachable.addField _ _ _ _ _ (Reachable.addField _ _ _ _ _
          (Reachable.create _ _ Reachable.new)))))))))
    "Track"
    ⟨"Track", [⟨"ends", .ref "Point", .fixed 2⟩, ⟨"codes", .prim .int16, .fixed 3⟩,
        ⟨"label", .prim .string, .scalar⟩, ⟨"next", .ref "Track", .variable⟩],
      .Compiled, 54, trackCommands⟩
    trackCommands 54 rfl rfl rfl
    MessageWriter.new trackValues rfl).resolve_left
    (fun h => absurd h.2 (by decide))

/-- The spec's second example: "Named" has size 12 and commands write-int32 at 0 and
string slot at 4; writing `id = 7`, `label = "hi"` puts 7 at offset 0 and the pair (0, 2) at
offset 4 of the binary buffer, and the two bytes of "hi" at offset 0 of the string buffer. -/
theorem write_named_example :
    (namedRegistry.getDefinition "Named").1.map Definition.getSize = some (.ok 12) ∧
    (namedRegistry.getDefinition "Named").1.map Definition.flattenCommands
      = some (.ok [.prim .int32 0 4, .stringSlot 4]) ∧
    (MessageWriter.new.reserve 12).write [.prim .int32 0 4, .stringSlot 4]
        [.int 7, .bytes [104, 105]]
      = .ok ⟨[7, 0, 0, 0, 0, 0, 0, 0, 2, 0, 0, 0], [104, 105]⟩ :=
  ⟨rfl, rfl, rfl⟩

end cruise
